import Mathlib

/-!
# pixelsortery (C front end): a shallow embedding

Source files embedded here:

* `main.c`: `readHeader` and `main` (PPM decode, call of the reorder routine, PPM encode);
* `cpixelsortery.h`: `swaylock_effect`, and the declaration of `hilbert_glitch`.

Conventions of the embedding.

* A C `int` is an `Int`; every arithmetic result is wrapped to 32 bits with `wrapInt32`
  (two's complement, the behaviour of the usual compilers where ISO C leaves signed overflow
  and shifts of negative values undefined).  A `uint32_t` is a `Nat` below `2 ^ 32`.
* An input file is the list of its bytes; reading is explicit state passing on the bytes left.
* The three `fgetc` calls of one pixel are taken left to right, as written in the source.
* Uninitialised stack buffers (`magicnumber`, `line`) start with arbitrary contents, passed
  in as the parameter `Uninit`.
* What is written to `stdout` (debug output) is not part of the model.
* `hilbert_glitch` is only declared in the header; where the C code is studied on its own it
  is a parameter, and a model written from the specification is given separately.
-/

namespace Pixelsortery

/-! ## C integers -/

/-- One byte of a file, the value of an `unsigned char`. -/
abbrev Byte := Fin 256

/-- Value of a mathematical integer stored in a 32-bit two's-complement `int`. -/
def wrapInt32 (z : Int) : Int := (z + 2147483648) % 4294967296 - 2147483648

/-- Conversion of an `int` to `uint32_t`: `2 ^ 32` is added to a negative value. -/
def intToUint32 (z : Int) : Nat := if z < 0 then (z + 4294967296).toNat else z.toNat

/-- The expression `a << k` on `int`. -/
def shlInt (a : Int) (k : Nat) : Int := wrapInt32 (a * 2 ^ k)

/-- The expression `a + b` on `int`. -/
def addInt (a b : Int) : Int := wrapInt32 (a + b)

/-- The expression `a * b` on `int`. -/
def mulInt (a b : Int) : Int := wrapInt32 (a * b)

/-! ## Pixel packing (`main.c`, read loop and write loop) -/

/-- Body of the read loop, `main.c` lines 57-60:
`uint32_t px = (fgetc(in) << 24) + (fgetc(in) << 16) + (fgetc(in) << 8) + 0x000000ff;`
where `c1 c2 c3` are the three results of `fgetc` (a byte, or `-1` at end of file).
The sum is computed in `int` and then converted to `uint32_t`. -/
def packPixel (c1 c2 c3 : Int) : Nat :=
  intToUint32 (addInt (addInt (addInt (shlInt c1 24) (shlInt c2 16)) (shlInt c3 8)) 255)

/-- Conversion `char c = px;` of a `uint32_t` to a (signed, 8-bit) `char`. -/
def uint32ToChar (n : Nat) : Int := if n % 256 < 128 then (n % 256 : Nat) else (n % 256 : Nat) - 256

/-- Conversion of the `%c` argument of `fprintf`: the `int` is converted to `unsigned char`. -/
def putChar (c : Int) : Byte := Fin.ofNat (c % 256).toNat

/-- Body of the write loop, `main.c` lines 81-86: the three bytes written for one pixel,
in the order `r`, `g`, `b` of `fprintf(out, "%c%c%c", r, g, b)`. -/
def unpackPixel (px0 : Nat) : Byte × Byte × Byte :=
  let px := px0 / 256
  let b := uint32ToChar px
  let px := px / 256
  let g := uint32ToChar px
  let px := px / 256
  let r := uint32ToChar px
  (putChar r, putChar g, putChar b)

/-! ## Input streams and the C library calls used by `readHeader` -/

/-- An open input file: the bytes not yet read. -/
abbrev Stream := List Byte

/-- The call `fgetc(in)`: the next byte and the advanced stream, or `EOF = -1`. -/
def fgetc : Stream → Int × Stream
  | [] => (-1, [])
  | b :: rest => (b.val, rest)

/-- Value returned by the `fgetc` call made after `j` bytes of `s` have been read. -/
def fgetcAt (s : Stream) (j : Nat) : Int := (fgetc (s.drop j)).1

/-- Characters taken by `fgets` when at most `k` may be stored: reading stops after a
newline (kept), at end of file, or after `k` characters. -/
def fgetsChars : Nat → Stream → List Byte × Stream
  | 0, s => ([], s)
  | _ + 1, [] => ([], [])
  | k + 1, b :: rest =>
    if b = 10 then ([b], rest)
    else ((b :: (fgetsChars k rest).1), (fgetsChars k rest).2)

/-- The call `fgets(buf, n, in)`: the new contents of the array `buf` and the advanced stream.
The characters read are stored followed by a NUL, the rest of the array is untouched; when
nothing could be read the array is left as it was. -/
def fgets (buf : List Byte) (n : Nat) (s : Stream) : List Byte × Stream :=
  let r := fgetsChars (n - 1) s
  if r.1 = [] then (buf, r.2) else (r.1 ++ (0 : Byte) :: buf.drop (r.1.length + 1), r.2)

/-- The C string held in a character array: the bytes before the first NUL. -/
def cString (buf : List Byte) : List Byte := buf.takeWhile (fun b => b != 0)

/-- The C predicate `isspace`. -/
def isSpace (b : Byte) : Bool := b = 32 || (9 ≤ b.val && b.val ≤ 13)

/-- The C predicate `isdigit`. -/
def isDigit (b : Byte) : Bool := 48 ≤ b.val && b.val ≤ 57

/-- Decimal value of a run of digit characters. -/
def digitsValue (ds : List Byte) : Nat := ds.foldl (fun acc d => acc * 10 + (d.val - 48)) 0

/-- Optional sign in front of a `%d` field: whether it is `-`, and what follows. -/
def scanSign : List Byte → Bool × List Byte
  | [] => (false, [])
  | b :: t => if b = 45 then (true, t) else if b = 43 then (false, t) else (false, b :: t)

/-- One `%d` conversion of `sscanf`: white space is skipped, then an optional sign and at
least one digit are read.  Returns the `int` stored and the rest of the string, or `none`
on a matching failure.  A value outside the range of `int` is stored wrapped. -/
def scanInt (s : List Byte) : Option (Int × List Byte) :=
  let sg := scanSign (s.dropWhile isSpace)
  let ds := sg.2.takeWhile isDigit
  if ds = [] then none
  else some (wrapInt32 (if sg.1 then -(digitsValue ds : Int) else (digitsValue ds : Int)),
             sg.2.dropWhile isDigit)

/-- The call `sscanf(line, "%d%d", w, h)`: the new values of `*w` and `*h`.  A variable
whose conversion fails keeps its value. -/
def sscanf_d_d (str : List Byte) (w h : Int) : Int × Int :=
  match scanInt str with
  | none => (w, h)
  | some (a, rest) =>
    match scanInt rest with
    | none => (a, h)
    | some (b, _) => (a, b)

/-- The call `sscanf(line, "%d", max)`: the new value of `*max`. -/
def sscanf_d (str : List Byte) (m : Int) : Int :=
  match scanInt str with
  | none => m
  | some (a, _) => a

/-- Initial (indeterminate) contents of the local arrays of `readHeader`. -/
structure Uninit where
  magicnumber : List Byte
  line : List Byte

/-- Result of `readHeader`: the value returned, the final values of `*w`, `*h`, `*max`, and
the stream left to read. -/
structure HeaderResult where
  ret : Int
  w : Int
  h : Int
  max : Int
  rest : Stream
deriving DecidableEq

/-- The function `readHeader` of `main.c` (lines 10-30), called with the current values
`w h max` of the variables its pointers refer to. -/
def readHeader (u : Uninit) (inp : Stream) (w h max : Int) : HeaderResult :=
  let r1 := fgets u.magicnumber 3 inp
  let magicnumber := r1.1
  if magicnumber.getD 0 0 ≠ 80 ∨ magicnumber.getD 1 0 ≠ 54 then ⟨-1, w, h, max, r1.2⟩
  else
    let r2 := fgetc r1.2
    let r3 := fgets u.line 20 r2.2
    let wh := sscanf_d_d (cString r3.1) w h
    let r4 := fgets r3.1 20 r3.2
    let max := sscanf_d (cString r4.1) max
    ⟨0, wh.1, wh.2, max, r4.2⟩

/-! ## `swaylock_effect` and `main` -/

/-- The read loop of `main.c` (lines 56-62) run for `n` pixels: the buffer built and the
stream left. -/
def readPixels : Nat → Stream → List Nat × Stream
  | 0, s => ([], s)
  | n + 1, s =>
    let c1 := fgetc s
    let c2 := fgetc c1.2
    let c3 := fgetc c2.2
    let r := readPixels n c3.2
    (packPixel c1.1 c2.1 c3.1 :: r.1, r.2)

/-- The function `swaylock_effect` of `cpixelsortery.h` (lines 8-11).  The routine
`hilbert_glitch` is declared only, so it is a parameter: it receives the buffer and the two
`int` dimensions converted to `uint32_t`, and its result is the result of the call. -/
def swaylock_effect {β : Type} (hilbert_glitch : List Nat → Nat → Nat → β)
    (data : List Nat) (width height : Int) : β :=
  hilbert_glitch data (intToUint32 width) (intToUint32 height)

/-- Decimal digits of `n`, most significant first (the first argument bounds the number
of digits). -/
def decDigits : Nat → Nat → List Byte
  | 0, _ => []
  | f + 1, n =>
    if n < 10 then [Fin.ofNat (48 + n)] else decDigits f (n / 10) ++ [Fin.ofNat (48 + n % 10)]

/-- The bytes `fprintf` writes for a `%d` argument. -/
def printInt (z : Int) : List Byte :=
  if z < 0 then (45 : Byte) :: decDigits ((-z).toNat + 1) (-z).toNat
  else decDigits (z.toNat + 1) z.toNat

/-- The three header lines written by `main.c` (lines 76-78):
`"P6\n"`, `"%d%1c%d\n"` with `width, 0x20, height`, and `"%d\n"` with `maxColorValue`. -/
def writeHeader (width height maxColorValue : Int) : List Byte :=
  [80, 54, 10] ++ (printInt width ++ (32 : Byte) :: printInt height ++ [10])
    ++ (printInt maxColorValue ++ [10])

/-- The write loop of `main.c` (lines 80-87) run for `n` pixels.  The loop reads `data[i]`
for every `i < n`; the C buffer keeps its `n` cells whatever the reorder routine does, so a
cell missing from the list is read as `0`. -/
def writePixels (n : Nat) (data : List Nat) : List Byte :=
  (List.range n).flatMap (fun i =>
    let p := unpackPixel (data.getD i 0)
    [p.1, p.2.1, p.2.2])

/-- What a run of `main` did: the value returned, the calls of the reorder routine (buffer,
width, height), the input bytes left unread, and the bytes written to the output file
(`none` when the output file was never opened). -/
structure Outcome where
  exit : Int
  reorderCalls : List (List Nat × Int × Int)
  unread : Stream
  output : Option (List Byte)
deriving DecidableEq

/-- The function `main` of `main.c` (lines 31-91), for an input file that exists and holds
the bytes `tempin`.  The global variables `width`, `height`, `maxColorValue` start at `0`;
the value returned by `readHeader` is not used. -/
def main (hilbert_glitch : List Nat → Nat → Nat → List Nat) (u : Uninit)
    (argc : Int) (tempin : Stream) : Outcome :=
  if argc < 2 ∨ argc > 3 then ⟨-1, [], tempin, none⟩
  else
    let hd := readHeader u tempin 0 0 0
    let width := hd.w
    let height := hd.h
    let maxColorValue := hd.max
    let n := (mulInt width height).toNat
    let rd := readPixels n hd.rest
    let data := swaylock_effect hilbert_glitch rd.1 width height
    ⟨0, [(rd.1, width, height)], rd.2,
      some (writeHeader width height maxColorValue ++ writePixels n data)⟩

/-! ## The curve indexer (specification, section 4.1) -/

/-- Modelled from the spec: the quadrant-to-index mapping of `distance_of`, which is not in
the C sources; the classic choice `(3 * rx) xor ry`. -/
def quadrant_index (rx ry : Nat) : Nat := (3 * rx) ^^^ ry

/-- Modelled from the spec: the rotate/reflect rule applied for the quadrant `(rx, ry)` in a
square of side `n`, which is not in the C sources (the classic Hilbert rotation). -/
def rotate (n x y rx ry : Nat) : Nat × Nat :=
  if ry = 0 then
    if rx = 1 then (n - 1 - y, n - 1 - x) else (y, x)
  else (x, y)

/-- Modelled from the spec: the loop of `distance_of` over the bit levels `j - 1, ..., 0`,
most significant first: take the quadrant bits of `(x, y)`, accumulate
`d = d * 4 + quadrant_index rx ry`, rotate `(x, y)`, descend. -/
def distanceLoop (n : Nat) : Nat → Nat → Nat → Nat → Nat
  | 0, _, _, d => d
  | j + 1, x, y, d =>
    let rx := x / 2 ^ j % 2
    let ry := y / 2 ^ j % 2
    distanceLoop n j (rotate n x y rx ry).1 (rotate n x y rx ry).2 (d * 4 + quadrant_index rx ry)

/-- Modelled from the spec: `distance_of(x, y, order)`, the Hilbert distance of the cell
`(x, y)` of the grid of side `2 ^ order`; its implementation is not in the C sources. -/
def distance_of (x y order : Nat) : Nat := distanceLoop (2 ^ order) order x y 0

/-- Modelled from the spec: one step of `coordinate_of` at bit level `i`, on the state
`(x, y, t)`: decode the quadrant from the two low bits of `t`, apply the inverse rotation
in the square of side `2 ^ i`, move into the quadrant, drop the two bits. -/
def coordinateStep (st : Nat × Nat × Nat) (i : Nat) : Nat × Nat × Nat :=
  let x := st.1
  let y := st.2.1
  let t := st.2.2
  let rx := t / 2 % 2
  let ry := (t ^^^ rx) % 2
  let p := rotate (2 ^ i) x y rx ry
  (p.1 + 2 ^ i * rx, p.2 + 2 ^ i * ry, t / 4)

/-- Modelled from the spec: `coordinate_of(d, order)`, the inverse of `distance_of`, built
from the least significant pair of bits of `d` upward; its implementation is not in the C
sources. -/
def coordinate_of (d order : Nat) : Nat × Nat :=
  let st := (List.range order).foldl coordinateStep (0, 0, d)
  (st.1, st.2.1)

/-! ## The reorder engine (specification, sections 3, 4.2 and 7) -/

/-- Modelled from the spec: the precondition violations of section 7; the reorder routine
is not in the C sources. -/
inductive PreconditionViolation where
  | dimension_mismatch
  | invalid_order
  | order_overflow
  | invalid_segment_length
deriving DecidableEq

/-- Modelled from the spec: the two modes of the reorder engine (section 4.2); the engine
is the routine `hilbert_glitch`, whose implementation is not in the C sources. -/
inductive ReorderMode where
  | pure_traversal_remap
  | sorted_along_curve
deriving DecidableEq

/-- Modelled from the spec: the configuration surface of section 6, a mode, a segment
length and a sort key (a scalar computed from a pixel); the C declaration of
`hilbert_glitch` has no such parameter and its implementation is not in the C sources. -/
structure ReorderConfig where
  mode : ReorderMode
  segment_length : Int
  sort_key : Nat → Nat

/-- Modelled from the spec: search for the least `k` at or above the start value with
`n ≤ 2 ^ k` (padding to the next power of two, section 4.1); the derivation of the order
is part of `hilbert_glitch`, not in the C sources. -/
def orderSearch : Nat → Nat → Nat → Nat
  | 0, k, _ => k
  | fuel + 1, k, n => if n ≤ 2 ^ k then k else orderSearch fuel (k + 1) n

/-- Modelled from the spec: the curve order derived from the dimensions, the logical grid
being padded to the next power-of-two square; part of `hilbert_glitch`, not in the C
sources. -/
def curve_order (width height : Nat) : Nat :=
  orderSearch (max width height) 0 (max width height)

/-- Modelled from the spec: the `CurveOrder` of section 3, from curve position to linear
pixel index, which the C sources do not build.  The curve runs over the padded square; the
cells outside the image are dropped. -/
def curveOrder (width height order : Nat) : List Nat :=
  (((List.range (4 ^ order)).map (fun d => coordinate_of d order)).filter
      (fun c => decide (c.1 < width ∧ c.2 < height))).map
    (fun c => c.2 * width + c.1)

/-- Modelled from the spec: the segment sort of section 4.2, not in the C sources.  The
traversal is cut into consecutive segments of `len` pixels and each segment is sorted by
the key (the first argument bounds the number of segments). -/
def sortSegments (len : Nat) (key : Nat → Nat) : Nat → List Nat → List Nat
  | 0, l => l
  | fuel + 1, l =>
    if l = [] then []
    else (l.take len).insertionSort (fun a b => key a ≤ key b)
      ++ sortSegments len key fuel (l.drop len)

/-- Modelled from the spec: the in-place rewrite of section 4.2, not in the C sources; the
`j`-th value goes to the cell named by the `j`-th curve position. -/
def scatter : List Nat → List Nat → List Nat → List Nat
  | i :: is, v :: vs, buf => scatter is vs (buf.set i v)
  | _, _, buf => buf

/-- Modelled from the spec: the up-front validation of sections 4.1, 4.2 and 7, not in the C
sources.  Distances are taken to be 64-bit, so an order above 32 overflows. -/
def validate (cfg : ReorderConfig) (data : List Nat) (width height : Nat) :
    Option PreconditionViolation :=
  if data.length ≠ width * height then some .dimension_mismatch
  else if curve_order width height = 0 then some .invalid_order
  else if 32 < curve_order width height then some .order_overflow
  else if cfg.segment_length ≤ 0 then some .invalid_segment_length
  else none

/-- Modelled from the spec: the two reorder modes of section 4.2 on a validated buffer, the
body of `hilbert_glitch` that the C sources lack.
Pure traversal remap: the output pixel at curve position `d` is the input pixel at the
linear index of `coordinate_of d`.  Sorted along the curve: the traversal is sorted segment
by segment and written back to the same curve positions. -/
def reorder (cfg : ReorderConfig) (data : List Nat) (curve : List Nat) : List Nat :=
  let traversal := curve.map (fun i => data.getD i 0)
  match cfg.mode with
  | .pure_traversal_remap => traversal
  | .sorted_along_curve =>
    scatter curve
      (sortSegments cfg.segment_length.toNat cfg.sort_key traversal.length traversal) data

/-- Modelled from the spec: the routine `hilbert_glitch`, declared in `cpixelsortery.h` and
implemented outside the C sources.  The buffer after the call: untouched when validation
fails (fail fast), reordered otherwise. -/
def hilbert_glitch (cfg : ReorderConfig) (data : List Nat) (width height : Nat) : List Nat :=
  match validate cfg data width height with
  | some _ => data
  | none => reorder cfg data (curveOrder width height (curve_order width height))

/-! ## Concrete inputs used in the examples -/

/-- Local arrays that happen to hold zeroes. -/
def zeroedArrays : Uninit := ⟨[0, 0, 0], List.replicate 20 0⟩

/-- The file `P6\n2 1\n255\n` followed by the two pixels `(1, 2, 3)` and `(200, 201, 202)`. -/
def twoPixelImage : Stream :=
  [80, 54, 10, 50, 32, 49, 10, 50, 53, 53, 10, 1, 2, 3, 200, 201, 202]

/-- The file `P6\n1 1\n255\n` with no pixel data at all. -/
def truncatedImage : Stream := [80, 54, 10, 49, 32, 49, 10, 50, 53, 53, 10]

/-- The file `P5\n1 1\n255\n` followed by three data bytes: the magic number is not `P6`. -/
def wrongMagicImage : Stream := [80, 53, 10, 49, 32, 49, 10, 50, 53, 53, 10, 1, 2, 3]

/-- A reorder routine that reverses the buffer. -/
def reverseRoutine (d : List Nat) (_w _h : Nat) : List Nat := d.reverse

/-- A reorder routine that records its arguments. -/
def recordRoutine (d : List Nat) (w h : Nat) : List Nat × Nat × Nat := (d.reverse, w, h)

/-- A configuration sorting whole runs of four pixels by their value. -/
def sortByValue : ReorderConfig := ⟨.sorted_along_curve, 4, fun px => px⟩

/-! ## Lemmas on the C front end -/

theorem packPixel_bytes (r g b : Nat) (hr : r < 256) (hg : g < 256) (hb : b < 256) :
    packPixel r g b = r * 16777216 + g * 65536 + b * 256 + 255 := by
  simp only [packPixel, addInt, shlInt, wrapInt32, intToUint32]
  norm_num
  split <;> omega

theorem unpackPixel_val (px : Nat) :
    ((unpackPixel px).1.val = px / 16777216 % 256) ∧
    ((unpackPixel px).2.1.val = px / 65536 % 256) ∧
    ((unpackPixel px).2.2.val = px / 256 % 256) := by
  simp only [unpackPixel, putChar, uint32ToChar, Fin.ofNat]
  refine ⟨?_, ?_, ?_⟩ <;> split <;> simp <;> omega

theorem fgets_magic (buf : List Byte) (b0 b1 : Byte) (rest : Stream) :
    (fgets buf 3 (b0 :: b1 :: rest)).1.getD 0 0 = b0 ∧
    (fgets buf 3 (b0 :: b1 :: rest)).1.getD 1 0 = (if b0 = 10 then 0 else b1) := by
  by_cases h0 : b0 = 10
  · subst h0
    simp [fgets, fgetsChars]
  · by_cases h1 : b1 = 10
    · subst h1
      simp [fgets, fgetsChars, h0]
    · simp [fgets, fgetsChars, h0, h1]

theorem readHeader_bad_magic (u : Uninit) (inp : Stream) (w h max : Int)
    (hc : (fgets u.magicnumber 3 inp).1.getD 0 0 ≠ 80 ∨ (fgets u.magicnumber 3 inp).1.getD 1 0 ≠ 54) :
    readHeader u inp w h max = ⟨-1, w, h, max, (fgets u.magicnumber 3 inp).2⟩ := by
  simp only [readHeader, if_pos hc]

theorem readHeader_good_magic (u : Uninit) (inp : Stream) (w h max : Int)
    (hc : ¬ ((fgets u.magicnumber 3 inp).1.getD 0 0 ≠ 80 ∨ (fgets u.magicnumber 3 inp).1.getD 1 0 ≠ 54)) :
    (readHeader u inp w h max).ret = 0 := by
  simp only [readHeader, if_neg hc]

theorem fgetc_rest (s : Stream) : (fgetc s).2 = s.drop 1 := by
  cases s <;> rfl

theorem fgetcAt_eof (s : Stream) (j : Nat) (h : s.length ≤ j) : fgetcAt s j = -1 := by
  unfold fgetcAt
  rw [List.drop_eq_nil_of_le h]
  rfl

theorem readPixels_eq (n : Nat) (s : Stream) :
    readPixels n s =
      ((List.range n).map (fun i =>
          packPixel (fgetcAt s (3 * i)) (fgetcAt s (3 * i + 1)) (fgetcAt s (3 * i + 2))),
        s.drop (3 * n)) := by
  induction n generalizing s with
  | zero => simp [readPixels]
  | succ n ih =>
    simp only [readPixels, fgetc_rest, List.drop_drop]
    rw [ih, List.range_succ_eq_map]
    simp only [List.map_cons, List.map_map, List.drop_drop]
    refine Prod.ext ?_ ?_
    · simp only [fgetcAt, List.drop_drop, fgetc_rest]
      refine congrArg₂ List.cons ?_ ?_
      · simp
      · apply List.map_congr_left
        intro i _
        simp only [Function.comp]
        have e1 : 1 + 1 + 1 + 3 * i = 3 * (i + 1) := by omega
        have e2 : 1 + 1 + 1 + (3 * i + 1) = 3 * (i + 1) + 1 := by omega
        have e3 : 1 + 1 + 1 + (3 * i + 2) = 3 * (i + 1) + 2 := by omega
        simp only [e1, e2, e3, Nat.succ_eq_add_one]
    · simp only []
      congr 1
      omega

theorem writePixels_length (n : Nat) (data : List Nat) : (writePixels n data).length = 3 * n := by
  unfold writePixels
  induction n with
  | zero => simp
  | succ n ih =>
    rw [List.range_succ, List.flatMap_append, List.length_append, ih]
    simp
    omega

theorem mulInt_fit (a b : Int) (ha : 0 ≤ a) (hb : 0 ≤ b) (h : a * b < 2 ^ 31) :
    mulInt a b = a * b := by
  have : 0 ≤ a * b := Int.mul_nonneg ha hb
  unfold mulInt wrapInt32
  norm_num at h
  omega

theorem main_run (hilbert_glitch : List Nat → Nat → Nat → List Nat) (u : Uninit)
    (argc : Int) (tempin : Stream) (hargc : 2 ≤ argc ∧ argc ≤ 3) :
    main hilbert_glitch u argc tempin =
      ⟨0,
       [((readPixels (mulInt (readHeader u tempin 0 0 0).w (readHeader u tempin 0 0 0).h).toNat
            (readHeader u tempin 0 0 0).rest).1,
         (readHeader u tempin 0 0 0).w, (readHeader u tempin 0 0 0).h)],
       (readPixels (mulInt (readHeader u tempin 0 0 0).w (readHeader u tempin 0 0 0).h).toNat
            (readHeader u tempin 0 0 0).rest).2,
       some (writeHeader (readHeader u tempin 0 0 0).w (readHeader u tempin 0 0 0).h
              (readHeader u tempin 0 0 0).max ++
            writePixels (mulInt (readHeader u tempin 0 0 0).w (readHeader u tempin 0 0 0).h).toNat
              (swaylock_effect hilbert_glitch
                (readPixels (mulInt (readHeader u tempin 0 0 0).w
                    (readHeader u tempin 0 0 0).h).toNat (readHeader u tempin 0 0 0).rest).1
                (readHeader u tempin 0 0 0).w (readHeader u tempin 0 0 0).h))⟩ := by
  have : ¬ (argc < 2 ∨ argc > 3) := by omega
  simp only [main, if_neg this]

theorem wrapInt32_range (z : Int) : -2147483648 ≤ wrapInt32 z ∧ wrapInt32 z < 2147483648 := by
  unfold wrapInt32
  omega

theorem wrapInt32_id (z : Int) (h : -2147483648 ≤ z ∧ z < 2147483648) : wrapInt32 z = z := by
  unfold wrapInt32
  omega

theorem scanInt_range (s : List Byte) (a : Int) (rest : List Byte)
    (h : scanInt s = some (a, rest)) : -2147483648 ≤ a ∧ a < 2147483648 := by
  unfold scanInt at h
  simp only [] at h
  split at h
  · exact Option.noConfusion h
  · simp only [Option.some.injEq, Prod.mk.injEq] at h
    rw [← h.1]
    exact wrapInt32_range _

theorem sscanf_d_d_range (s : List Byte) (w h : Int)
    (hw : -2147483648 ≤ w ∧ w < 2147483648) (hh : -2147483648 ≤ h ∧ h < 2147483648) :
    (-2147483648 ≤ (sscanf_d_d s w h).1 ∧ (sscanf_d_d s w h).1 < 2147483648) ∧
    (-2147483648 ≤ (sscanf_d_d s w h).2 ∧ (sscanf_d_d s w h).2 < 2147483648) := by
  unfold sscanf_d_d
  cases h1 : scanInt s with
  | none => exact ⟨hw, hh⟩
  | some p =>
    obtain ⟨a, rest⟩ := p
    have ha := scanInt_range s a rest h1
    simp only []
    cases h2 : scanInt rest with
    | none => exact ⟨ha, hh⟩
    | some q =>
      obtain ⟨b, rest2⟩ := q
      exact ⟨ha, scanInt_range rest b rest2 h2⟩

theorem sscanf_d_range (s : List Byte) (m : Int)
    (hm : -2147483648 ≤ m ∧ m < 2147483648) :
    -2147483648 ≤ sscanf_d s m ∧ sscanf_d s m < 2147483648 := by
  unfold sscanf_d
  cases h1 : scanInt s with
  | none => exact hm
  | some p =>
    obtain ⟨a, rest⟩ := p
    exact scanInt_range s a rest h1

theorem readHeader_range (u : Uninit) (inp : Stream) :
    (-2147483648 ≤ (readHeader u inp 0 0 0).w ∧ (readHeader u inp 0 0 0).w < 2147483648) ∧
    (-2147483648 ≤ (readHeader u inp 0 0 0).h ∧ (readHeader u inp 0 0 0).h < 2147483648) ∧
    (-2147483648 ≤ (readHeader u inp 0 0 0).max ∧ (readHeader u inp 0 0 0).max < 2147483648) := by
  unfold readHeader
  simp only []
  split
  · simp
  · simp only []
    have z : (-2147483648 : Int) ≤ 0 ∧ (0 : Int) < 2147483648 := by decide
    exact ⟨(sscanf_d_d_range _ 0 0 z z).1, (sscanf_d_d_range _ 0 0 z z).2, sscanf_d_range _ 0 z⟩

theorem digit_val (d : Nat) (hd : d < 10) : (Fin.ofNat (48 + d) : Byte).val = 48 + d := by
  simp only [Fin.ofNat]
  omega

theorem digit_isDigit (d : Nat) (hd : d < 10) : isDigit (Fin.ofNat (48 + d) : Byte) = true := by
  unfold isDigit
  rw [digit_val d hd]
  simp
  omega

theorem decDigits_isDigit (f n : Nat) : ∀ b ∈ decDigits f n, isDigit b = true := by
  induction f generalizing n with
  | zero => simp [decDigits]
  | succ f ih =>
    intro b hb
    simp only [decDigits] at hb
    split at hb
    · rename_i h
      rw [List.mem_singleton] at hb
      rw [hb]
      exact digit_isDigit n h
    · rw [List.mem_append, List.mem_singleton] at hb
      rcases hb with hb | hb
      · exact ih _ b hb
      · rw [hb]
        exact digit_isDigit _ (Nat.mod_lt _ (by decide))

theorem decDigits_ne_nil (f n : Nat) : decDigits (f + 1) n ≠ [] := by
  simp only [decDigits]
  split <;> simp

theorem digitsValue_append (l : List Byte) (b : Byte) :
    digitsValue (l ++ [b]) = digitsValue l * 10 + (b.val - 48) := by
  simp [digitsValue, List.foldl_append]

theorem digitsValue_decDigits (f n : Nat) (h : n < f) : digitsValue (decDigits f n) = n := by
  induction f generalizing n with
  | zero => omega
  | succ f ih =>
    simp only [decDigits]
    split
    · rename_i h10
      simp [digitsValue, digit_val n h10]
    · rw [digitsValue_append, ih _ (by omega), digit_val _ (Nat.mod_lt _ (by decide))]
      omega

theorem decDigits_length_le (f n k : Nat) (hk : 1 ≤ k) (h : n < 10 ^ k) :
    (decDigits f n).length ≤ k := by
  induction f generalizing n k with
  | zero => simp [decDigits]
  | succ f ih =>
    simp only [decDigits]
    split
    · simpa using hk
    · rename_i h10
      rw [List.length_append, List.length_singleton]
      have hk2 : 2 ≤ k := by
        rcases Nat.lt_or_ge k 2 with h2 | h2
        · have : k = 1 := by omega
          rw [this] at h
          simp at h
          omega
        · exact h2
      have : n / 10 < 10 ^ (k - 1) := by
        apply Nat.div_lt_of_lt_mul
        have e : 10 * 10 ^ (k - 1) = 10 ^ k := by
          conv_rhs => rw [show k = (k - 1) + 1 by omega, pow_succ]
          ring
        rw [e]
        exact h
      have := ih (n / 10) (k - 1) (by omega) this
      omega

theorem decDigits_pow_le (f n : Nat) (h1 : 1 ≤ n) (h : n < f) :
    10 ^ ((decDigits f n).length - 1) ≤ n := by
  induction f generalizing n with
  | zero => omega
  | succ f ih =>
    simp only [decDigits]
    split
    · simpa using h1
    · rename_i h10
      rw [List.length_append, List.length_singleton, Nat.add_sub_cancel]
      have hi := ih (n / 10) (by omega) (by omega)
      have hl : 1 ≤ (decDigits f (n / 10)).length := by
        cases f with
        | zero => omega
        | succ f =>
          have := decDigits_ne_nil f (n / 10)
          exact List.length_pos.2 this
      have e : 10 ^ (decDigits f (n / 10)).length
          = 10 * 10 ^ ((decDigits f (n / 10)).length - 1) := by
        conv_lhs => rw [show (decDigits f (n / 10)).length
          = ((decDigits f (n / 10)).length - 1) + 1 by omega, pow_succ]
        ring
      rw [e]
      omega

theorem takeWhile_dropWhile_stop (p : Byte → Bool) (l t : List Byte)
    (hl : ∀ b ∈ l, p b = true) (ht : ∀ b, t.head? = some b → p b = false) :
    (l ++ t).takeWhile p = l ∧ (l ++ t).dropWhile p = t := by
  induction l with
  | nil =>
    cases t with
    | nil => simp
    | cons b t =>
      have := ht b rfl
      simp [List.takeWhile, List.dropWhile, this]
  | cons a l ih =>
    have ha := hl a (List.mem_cons_self _ _)
    have := ih (fun b hb => hl b (List.mem_cons_of_mem _ hb))
    simp [List.takeWhile, List.dropWhile, ha, this.1, this.2]

theorem isDigit_facts (b : Byte) (h : isDigit b = true) :
    isSpace b = false ∧ b ≠ 45 ∧ b ≠ 43 ∧ b ≠ 10 ∧ b ≠ 0 := by
  obtain ⟨v, hv⟩ := b
  simp only [isDigit, Bool.and_eq_true, decide_eq_true_eq] at h
  simp only [isSpace, Bool.or_eq_false_iff, Bool.and_eq_false_iff, decide_eq_false_iff_not]
  refine ⟨⟨?_, ?_⟩, ?_, ?_, ?_, ?_⟩
  · intro e; have := congrArg Fin.val e; simp at this; omega
  · simp; omega
  · intro e; have := congrArg Fin.val e; simp at this; omega
  · intro e; have := congrArg Fin.val e; simp at this; omega
  · intro e; have := congrArg Fin.val e; simp at this; omega
  · intro e; have := congrArg Fin.val e; simp at this; omega

theorem scanInt_digits (ds t : List Byte) (hne : ds ≠ [])
    (hd : ∀ b ∈ ds, isDigit b = true) (ht : ∀ b, t.head? = some b → isDigit b = false) :
    scanInt (ds ++ t) = some (wrapInt32 (digitsValue ds), t) ∧
    scanInt ((45 : Byte) :: (ds ++ t)) = some (wrapInt32 (-(digitsValue ds : Int)), t) := by
  obtain ⟨tk, dr⟩ := takeWhile_dropWhile_stop isDigit ds t hd ht
  cases ds with
  | nil => exact absurd rfl hne
  | cons b ds =>
    obtain ⟨f1, f2, f3, _, _⟩ := isDigit_facts b (hd b (List.mem_cons_self _ _))
    have s45 : isSpace (45 : Byte) = false := by decide
    constructor
    · have e1 : ((b :: ds) ++ t).dropWhile isSpace = (b :: ds) ++ t := by
        simp [List.dropWhile, f1]
      have e2 : scanSign ((b :: ds) ++ t) = (false, (b :: ds) ++ t) := by
        simp [scanSign, f2, f3]
      simp only [scanInt, e1, e2, tk, dr]
      simp
    · have e1 : ((45 : Byte) :: ((b :: ds) ++ t)).dropWhile isSpace
          = (45 : Byte) :: ((b :: ds) ++ t) := by
        simp [List.dropWhile, s45]
      have e2 : scanSign ((45 : Byte) :: ((b :: ds) ++ t)) = (true, (b :: ds) ++ t) := by
        simp [scanSign]
      simp only [scanInt, e1, e2, tk, dr]
      simp

theorem scanInt_printInt (z : Int) (t : List Byte)
    (hz : -2147483648 ≤ z ∧ z < 2147483648)
    (ht : ∀ b, t.head? = some b → isDigit b = false) :
    scanInt (printInt z ++ t) = some (z, t) := by
  unfold printInt
  split
  · rename_i hneg
    have h := (scanInt_digits (decDigits ((-z).toNat + 1) (-z).toNat) t (decDigits_ne_nil _ _)
      (decDigits_isDigit _ _) ht).2
    rw [List.cons_append, h, digitsValue_decDigits _ _ (by omega), wrapInt32_id]
    · congr 2
      omega
    · omega
  · rename_i hpos
    have h := (scanInt_digits (decDigits (z.toNat + 1) z.toNat) t (decDigits_ne_nil _ _)
      (decDigits_isDigit _ _) ht).1
    rw [h, digitsValue_decDigits _ _ (by omega), wrapInt32_id]
    · congr 2
      omega
    · omega

theorem scanInt_skip_space (s : List Byte) : scanInt ((32 : Byte) :: s) = scanInt s := by
  have : isSpace (32 : Byte) = true := by decide
  simp [scanInt, List.dropWhile, this]

theorem printInt_length (z : Int) (hz : -2147483648 ≤ z ∧ z < 2147483648) :
    (printInt z).length ≤ 11 := by
  unfold printInt
  split
  · have := decDigits_length_le ((-z).toNat + 1) (-z).toNat 10 (by decide) (by norm_num; omega)
    rw [List.length_cons]
    omega
  · have := decDigits_length_le (z.toNat + 1) z.toNat 10 (by decide) (by norm_num; omega)
    omega

theorem printInt_chars (z : Int) : ∀ b ∈ printInt z, b ≠ 10 ∧ b ≠ 0 := by
  intro b hb
  unfold printInt at hb
  split at hb
  · rw [List.mem_cons] at hb
    rcases hb with hb | hb
    · rw [hb]; decide
    · obtain ⟨_, _, _, h1, h2⟩ := isDigit_facts b (decDigits_isDigit _ _ b hb)
      exact ⟨h1, h2⟩
  · obtain ⟨_, _, _, h1, h2⟩ := isDigit_facts b (decDigits_isDigit _ _ b hb)
    exact ⟨h1, h2⟩

theorem printInt_pair_length (w h : Int) (hw : 0 ≤ w ∧ w < 2147483648)
    (hh : 0 ≤ h ∧ h < 2147483648) (hfit : w * h < 2147483648) :
    (printInt w).length + (printInt h).length ≤ 17 := by
  have key : ∀ z : Int, 0 ≤ z → (printInt z).length = (decDigits (z.toNat + 1) z.toNat).length := by
    intro z hz
    unfold printInt
    rw [if_neg (by omega)]
  have lw := printInt_length w ⟨by omega, hw.2⟩
  have lh := printInt_length h ⟨by omega, hh.2⟩
  have one : (printInt 0).length = 1 := by decide
  by_cases hw0 : w = 0
  · subst hw0
    omega
  · by_cases hh0 : h = 0
    · subst hh0
      omega
    · have pw := decDigits_pow_le (w.toNat + 1) w.toNat (by omega) (by omega)
      have ph := decDigits_pow_le (h.toNat + 1) h.toNat (by omega) (by omega)
      rw [← key w hw.1] at pw
      rw [← key h hh.1] at ph
      have hprod : w.toNat * h.toNat < 2147483648 := by
        have e : ((w.toNat * h.toNat : Nat) : Int) = w * h := by
          rw [Nat.cast_mul, Int.toNat_of_nonneg hw.1, Int.toNat_of_nonneg hh.1]
        omega
      have hmul := Nat.mul_le_mul pw ph
      rw [← pow_add] at hmul
      by_contra hcon
      have hexp : 10 ≤ (printInt w).length - 1 + ((printInt h).length - 1) := by omega
      have := Nat.pow_le_pow_right (by decide : 0 < 10) hexp
      omega

theorem fgetsChars_line (k : Nat) (l t : List Byte) (hl : ∀ b ∈ l, b ≠ 10)
    (hk : l.length < k) : fgetsChars k (l ++ (10 : Byte) :: t) = (l ++ [10], t) := by
  induction l generalizing k with
  | nil =>
    cases k with
    | zero => simp at hk
    | succ k => simp [fgetsChars]
  | cons a l ih =>
    cases k with
    | zero => simp at hk
    | succ k =>
      have ha : a ≠ 10 := hl a (List.mem_cons_self _ _)
      have hi := ih k (fun b hb => hl b (List.mem_cons_of_mem _ hb))
        (by simpa using hk)
      rw [List.cons_append]
      simp only [fgetsChars, if_neg ha, hi]
      rfl

theorem fgets_line (buf : List Byte) (n : Nat) (l t : List Byte) (hl : ∀ b ∈ l, b ≠ 10)
    (hk : l.length < n - 1) :
    fgets buf n (l ++ (10 : Byte) :: t)
      = ((l ++ [10]) ++ (0 : Byte) :: buf.drop ((l ++ [10]).length + 1), t) := by
  unfold fgets
  simp only [fgetsChars_line (n - 1) l t hl hk]
  rw [if_neg (by simp)]

theorem cString_line (l t : List Byte) (hl : ∀ b ∈ l, b ≠ 0) :
    cString (l ++ (0 : Byte) :: t) = l := by
  unfold cString
  induction l with
  | nil => simp [List.takeWhile]
  | cons a l ih =>
    have ha : a ≠ 0 := hl a (List.mem_cons_self _ _)
    have hi := ih (fun b hb => hl b (List.mem_cons_of_mem _ hb))
    have hb : (a != 0) = true := by simpa using ha
    rw [List.cons_append, List.takeWhile_cons, hb]
    simp only [if_true]
    rw [hi]

theorem readHeader_writeHeader (u : Uninit) (w h max w0 h0 m0 : Int) (body : List Byte)
    (hw : 0 ≤ w ∧ w < 2147483648) (hh : 0 ≤ h ∧ h < 2147483648)
    (hfit : w * h < 2147483648) (hmax : -2147483648 ≤ max ∧ max < 2147483648) :
    readHeader u (writeHeader w h max ++ body) w0 h0 m0 = ⟨0, w, h, max, body⟩ := by
  have hlen := printInt_pair_length w h hw hh hfit
  have hmlen := printInt_length max hmax
  have cw := printInt_chars w
  have ch := printInt_chars h
  have cm := printInt_chars max
  have l1 : ∀ b ∈ printInt w ++ (32 : Byte) :: printInt h, b ≠ 10 ∧ b ≠ 0 := by
    intro b hb
    rw [List.mem_append, List.mem_cons] at hb
    rcases hb with hb | hb | hb
    · exact cw b hb
    · rw [hb]; decide
    · exact ch b hb
  have e0 : writeHeader w h max ++ body
      = (80 : Byte) :: 54 :: 10 ::
          ((printInt w ++ (32 : Byte) :: printInt h) ++ (10 : Byte) ::
            (printInt max ++ (10 : Byte) :: body)) := by
    simp [writeHeader]
  have m1 : fgets u.magicnumber 3 ((80 : Byte) :: 54 :: 10 ::
          ((printInt w ++ (32 : Byte) :: printInt h) ++ (10 : Byte) ::
            (printInt max ++ (10 : Byte) :: body)))
      = ((80 : Byte) :: 54 :: 0 :: u.magicnumber.drop 3, (10 : Byte) ::
          ((printInt w ++ (32 : Byte) :: printInt h) ++ (10 : Byte) ::
            (printInt max ++ (10 : Byte) :: body))) := by
    simp [fgets, fgetsChars]
  have f1 := fgets_line u.line 20 (printInt w ++ (32 : Byte) :: printInt h)
    (printInt max ++ (10 : Byte) :: body) (fun b hb => (l1 b hb).1)
    (by rw [List.length_append, List.length_cons]; omega)
  have c1 : ∀ junk, cString (((printInt w ++ (32 : Byte) :: printInt h) ++ [10]) ++ (0 : Byte) :: junk)
      = (printInt w ++ (32 : Byte) :: printInt h) ++ [10] := by
    intro junk
    apply cString_line
    intro b hb
    rw [List.mem_append, List.mem_singleton] at hb
    rcases hb with hb | hb
    · exact (l1 b hb).2
    · rw [hb]; decide
  have c2 : ∀ junk, cString ((printInt max ++ [10]) ++ (0 : Byte) :: junk) = printInt max ++ [10] := by
    intro junk
    apply cString_line
    intro b hb
    rw [List.mem_append, List.mem_singleton] at hb
    rcases hb with hb | hb
    · exact (cm b hb).2
    · rw [hb]; decide
  have s1 : sscanf_d_d ((printInt w ++ (32 : Byte) :: printInt h) ++ [10]) w0 h0 = (w, h) := by
    have a1 : scanInt (printInt w ++ ((32 : Byte) :: (printInt h ++ [10])))
        = some (w, (32 : Byte) :: (printInt h ++ [10])) := by
      apply scanInt_printInt w _ ⟨by omega, hw.2⟩
      intro b hb
      simp only [List.head?_cons, Option.some.injEq] at hb
      rw [← hb]; decide
    have a2 : scanInt ((32 : Byte) :: (printInt h ++ [10])) = some (h, [10]) := by
      rw [scanInt_skip_space]
      apply scanInt_printInt h _ ⟨by omega, hh.2⟩
      intro b hb
      simp only [List.head?_cons, Option.some.injEq] at hb
      rw [← hb]; decide
    have e : (printInt w ++ (32 : Byte) :: printInt h) ++ [10]
        = printInt w ++ ((32 : Byte) :: (printInt h ++ [10])) := by simp
    rw [e]
    simp only [sscanf_d_d, a1, a2]
  have s2 : sscanf_d (printInt max ++ [10]) m0 = max := by
    have a3 : scanInt (printInt max ++ [10]) = some (max, [10]) := by
      apply scanInt_printInt max _ hmax
      intro b hb
      simp only [List.head?_cons, Option.some.injEq] at hb
      rw [← hb]; decide
    simp only [sscanf_d, a3]
  rw [e0]
  unfold readHeader
  simp only [m1]
  rw [if_neg (by simp)]
  simp only [fgetc, f1, c1, s1]
  rw [fgets_line _ 20 (printInt max) body (fun b hb => (cm b hb).1) (by omega)]
  simp only [c2, s2]

/-! ## Lemmas on the curve indexer and the reorder engine -/

theorem quadrant_index_lt (rx ry : Nat) (hx : rx < 2) (hy : ry < 2) : quadrant_index rx ry < 4 := by
  interval_cases rx <;> interval_cases ry <;> decide

theorem rotate_lt (s a b rx ry : Nat) (ha : a < s) (hb : b < s) :
    (rotate s a b rx ry).1 < s ∧ (rotate s a b rx ry).2 < s := by
  unfold rotate
  split
  · split
    · exact ⟨by simp only []; omega, by simp only []; omega⟩
    · exact ⟨hb, ha⟩
  · exact ⟨ha, hb⟩

theorem rotate_rotate (s a b rx ry : Nat) (ha : a < s) (hb : b < s) :
    rotate s (rotate s a b rx ry).1 (rotate s a b rx ry).2 rx ry = (a, b) := by
  unfold rotate
  by_cases h1 : ry = 0
  · by_cases h2 : rx = 1
    · simp only [h1, h2, if_true]
      refine Prod.ext ?_ ?_
      · simp only []; omega
      · simp only []; omega
    · simp only [h1, h2, if_true, if_false]
  · simp only [h1, if_false]

theorem flip_mod (m n y : Nat) (hm : 0 < m) (hd : m ∣ n) (hy : y < n) :
    (n - 1 - y) % m = m - 1 - y % m := by
  obtain ⟨c, rfl⟩ := hd
  have h1 : y / m < c := Nat.div_lt_of_lt_mul hy
  have h2 := Nat.div_add_mod y m
  have h3 := Nat.mod_lt y hm
  have e : m * c - 1 - y = (m - 1 - y % m) + m * (c - 1 - y / m) := by
    have h4 : m * c = m * (c - 1 - y / m) + m * (y / m) + m := by
      have : c = (c - 1 - y / m) + y / m + 1 := by omega
      conv_lhs => rw [this]
      ring
    omega
  rw [e, Nat.add_mul_mod_self_left]
  exact Nat.mod_eq_of_lt (by omega)

theorem distanceLoop_acc (n j x y d : Nat) :
    distanceLoop n j x y d = d * 4 ^ j + distanceLoop n j x y 0 := by
  induction j generalizing x y d with
  | zero => simp [distanceLoop]
  | succ j ih =>
    simp only [distanceLoop]
    rw [ih, ih _ _ (0 * 4 + _)]
    ring

theorem distanceLoop_lt (n j x y : Nat) : distanceLoop n j x y 0 < 4 ^ j := by
  induction j generalizing x y with
  | zero => simp [distanceLoop]
  | succ j ih =>
    simp only [distanceLoop]
    rw [distanceLoop_acc]
    have hq := quadrant_index_lt (x / 2 ^ j % 2) (y / 2 ^ j % 2)
      (Nat.mod_lt _ (by decide)) (Nat.mod_lt _ (by decide))
    have := ih (rotate n x y (x / 2 ^ j % 2) (y / 2 ^ j % 2)).1
      (rotate n x y (x / 2 ^ j % 2) (y / 2 ^ j % 2)).2
    rw [pow_succ]
    nlinarith

theorem mod_pow_succ_split (x x2 j : Nat) (h : x % 2 ^ (j + 1) = x2 % 2 ^ (j + 1)) :
    x / 2 ^ j % 2 = x2 / 2 ^ j % 2 ∧ x % 2 ^ j = x2 % 2 ^ j := by
  rw [Nat.mod_pow_succ, Nat.mod_pow_succ] at h
  have hp : 0 < 2 ^ j := Nat.pos_pow_of_pos j (by decide)
  have a1 := Nat.mod_lt x hp
  have a2 := Nat.mod_lt x2 hp
  have b1 : x / 2 ^ j % 2 < 2 := Nat.mod_lt _ (by decide)
  have b2 : x2 / 2 ^ j % 2 < 2 := Nat.mod_lt _ (by decide)
  generalize x / 2 ^ j % 2 = r1 at *
  generalize x2 / 2 ^ j % 2 = r2 at *
  generalize x % 2 ^ j = m1 at *
  generalize x2 % 2 ^ j = m2 at *
  generalize 2 ^ j = P at *
  interval_cases r1 <;> interval_cases r2 <;> simp at h ⊢ <;> omega

theorem distanceLoop_congr (j : Nat) (n n2 x y x2 y2 d : Nat)
    (hn : 2 ^ j ∣ n) (hn2 : 2 ^ j ∣ n2) (hx : x < n) (hy : y < n) (hx2 : x2 < n2) (hy2 : y2 < n2)
    (ex : x % 2 ^ j = x2 % 2 ^ j) (ey : y % 2 ^ j = y2 % 2 ^ j) :
    distanceLoop n j x y d = distanceLoop n2 j x2 y2 d := by
  induction j generalizing x y x2 y2 d with
  | zero => simp [distanceLoop]
  | succ j ih =>
    obtain ⟨rxe, mx⟩ := mod_pow_succ_split x x2 j ex
    obtain ⟨rye, my⟩ := mod_pow_succ_split y y2 j ey
    have hp : 0 < 2 ^ j := Nat.pos_pow_of_pos j (by decide)
    have dn : 2 ^ j ∣ n := Dvd.dvd.trans ⟨2, by rw [pow_succ]⟩ hn
    have dn2 : 2 ^ j ∣ n2 := Dvd.dvd.trans ⟨2, by rw [pow_succ]⟩ hn2
    simp only [distanceLoop]
    rw [← rxe, ← rye]
    obtain ⟨l1, l2⟩ := rotate_lt n x y (x / 2 ^ j % 2) (y / 2 ^ j % 2) hx hy
    obtain ⟨l3, l4⟩ := rotate_lt n2 x2 y2 (x / 2 ^ j % 2) (y / 2 ^ j % 2) hx2 hy2
    refine ih _ _ _ _ _ dn dn2 l1 l2 l3 l4 ?_ ?_
    · unfold rotate
      split
      · split
        · simp only []
          rw [flip_mod _ _ _ hp dn hy, flip_mod _ _ _ hp dn2 hy2, my]
        · exact my
      · exact mx
    · unfold rotate
      split
      · split
        · simp only []
          rw [flip_mod _ _ _ hp dn hx, flip_mod _ _ _ hp dn2 hx2, mx]
        · exact mx
      · exact my

theorem distance_of_lt (x y k : Nat) : distance_of x y k < 4 ^ k := distanceLoop_lt _ _ _ _

theorem distance_of_succ (x y k : Nat) (hx : x < 2 ^ (k + 1)) (hy : y < 2 ^ (k + 1)) :
    distance_of x y (k + 1) =
      quadrant_index (x / 2 ^ k) (y / 2 ^ k) * 4 ^ k +
        distance_of (rotate (2 ^ k) (x % 2 ^ k) (y % 2 ^ k) (x / 2 ^ k) (y / 2 ^ k)).1
          (rotate (2 ^ k) (x % 2 ^ k) (y % 2 ^ k) (x / 2 ^ k) (y / 2 ^ k)).2 k := by
  have hp : 0 < 2 ^ k := Nat.pos_pow_of_pos k (by decide)
  have hxq : x / 2 ^ k < 2 := Nat.div_lt_of_lt_mul (by rw [pow_succ] at hx; omega)
  have hyq : y / 2 ^ k < 2 := Nat.div_lt_of_lt_mul (by rw [pow_succ] at hy; omega)
  have e1 : x / 2 ^ k % 2 = x / 2 ^ k := Nat.mod_eq_of_lt hxq
  have e2 : y / 2 ^ k % 2 = y / 2 ^ k := Nat.mod_eq_of_lt hyq
  unfold distance_of
  simp only [distanceLoop]
  rw [e1, e2, distanceLoop_acc]
  congr 1
  · ring
  · obtain ⟨l1, l2⟩ := rotate_lt (2 ^ (k + 1)) x y (x / 2 ^ k) (y / 2 ^ k) hx hy
    obtain ⟨l3, l4⟩ := rotate_lt (2 ^ k) (x % 2 ^ k) (y % 2 ^ k) (x / 2 ^ k) (y / 2 ^ k)
      (Nat.mod_lt _ hp) (Nat.mod_lt _ hp)
    have dn : 2 ^ k ∣ 2 ^ (k + 1) := ⟨2, by rw [pow_succ]⟩
    apply distanceLoop_congr k _ _ _ _ _ _ _ dn (dvd_refl _) l1 l2 l3 l4
    · unfold rotate
      split
      · split
        · simp only []
          rw [flip_mod _ _ _ hp dn hy, flip_mod _ _ _ hp (dvd_refl _) (Nat.mod_lt _ hp),
            Nat.mod_mod]
        · simp only [Nat.mod_mod]
      · simp only [Nat.mod_mod]
    · unfold rotate
      split
      · split
        · simp only []
          rw [flip_mod _ _ _ hp dn hx, flip_mod _ _ _ hp (dvd_refl _) (Nat.mod_lt _ hp),
            Nat.mod_mod]
        · simp only [Nat.mod_mod]
      · simp only [Nat.mod_mod]

theorem xor_bit_mod_two (t r : Nat) (hr : r < 2) : (t ^^^ r) % 2 = (t % 2 + r) % 2 := by
  have h := @Nat.xor_mod_two_eq_one t r
  have h1 := Nat.mod_two_eq_zero_or_one (t ^^^ r)
  have h2 := Nat.mod_two_eq_zero_or_one t
  have h3 : r % 2 = r := Nat.mod_eq_of_lt hr
  rw [h3] at h
  rcases h1 with h1 | h1 <;> rcases h2 with h2 | h2 <;> interval_cases r <;>
    simp [h1, h2] at h ⊢

theorem coordState_succ (d k : Nat) :
    (List.range (k + 1)).foldl coordinateStep (0, 0, d)
      = coordinateStep ((List.range k).foldl coordinateStep (0, 0, d)) k := by
  rw [List.range_succ, List.foldl_append]
  rfl

theorem coordState_t (d k : Nat) :
    ((List.range k).foldl coordinateStep (0, 0, d)).2.2 = d / 4 ^ k := by
  induction k with
  | zero => simp
  | succ k ih =>
    rw [coordState_succ]
    simp only [coordinateStep]
    rw [ih, Nat.div_div_eq_div_mul, pow_succ]

theorem coordState_lt (d k : Nat) :
    ((List.range k).foldl coordinateStep (0, 0, d)).1 < 2 ^ k ∧
    ((List.range k).foldl coordinateStep (0, 0, d)).2.1 < 2 ^ k := by
  induction k with
  | zero => simp
  | succ k ih =>
    rw [coordState_succ]
    simp only [coordinateStep]
    generalize ((List.range k).foldl coordinateStep (0, 0, d)) = st at ih ⊢
    obtain ⟨l1, l2⟩ := rotate_lt (2 ^ k) st.1 st.2.1 (st.2.2 / 2 % 2)
      ((st.2.2 ^^^ st.2.2 / 2 % 2) % 2) ih.1 ih.2
    have b1 : st.2.2 / 2 % 2 < 2 := Nat.mod_lt _ (by decide)
    have b2 : (st.2.2 ^^^ st.2.2 / 2 % 2) % 2 < 2 := Nat.mod_lt _ (by decide)
    rw [pow_succ]
    constructor <;> nlinarith

theorem coordinate_of_lt (d k : Nat) :
    (coordinate_of d k).1 < 2 ^ k ∧ (coordinate_of d k).2 < 2 ^ k := coordState_lt d k

theorem coordinate_of_succ_state (d k : Nat) :
    coordinate_of d (k + 1) =
      ((rotate (2 ^ k) (coordinate_of d k).1 (coordinate_of d k).2 (d / 4 ^ k / 2 % 2)
          ((d / 4 ^ k ^^^ d / 4 ^ k / 2 % 2) % 2)).1 + 2 ^ k * (d / 4 ^ k / 2 % 2),
       (rotate (2 ^ k) (coordinate_of d k).1 (coordinate_of d k).2 (d / 4 ^ k / 2 % 2)
          ((d / 4 ^ k ^^^ d / 4 ^ k / 2 % 2) % 2)).2
          + 2 ^ k * ((d / 4 ^ k ^^^ d / 4 ^ k / 2 % 2) % 2)) := by
  unfold coordinate_of
  simp only []
  rw [coordState_succ]
  simp only [coordinateStep, coordState_t]

theorem quadrant_bits_mod (t : Nat) :
    t / 2 % 2 = t % 4 / 2 ∧ (t ^^^ t / 2 % 2) % 2 = (t % 4 + t % 4 / 2) % 2 := by
  have b : t / 2 % 2 < 2 := Nat.mod_lt _ (by decide)
  rw [xor_bit_mod_two _ _ b]
  omega

theorem coordinate_of_mod (d k : Nat) : coordinate_of (d % 4 ^ k) k = coordinate_of d k := by
  induction k generalizing d with
  | zero => simp [coordinate_of]
  | succ k ih =>
    have hq : 0 < 4 ^ k := Nat.pos_pow_of_pos k (by decide)
    rw [coordinate_of_succ_state, coordinate_of_succ_state d]
    have e1 : coordinate_of (d % 4 ^ (k + 1)) k = coordinate_of d k := by
      rw [← ih (d % 4 ^ (k + 1)), ← ih d]
      congr 1
      exact Nat.mod_mod_of_dvd _ ⟨4, by rw [pow_succ]⟩
    have e2 : d % 4 ^ (k + 1) / 4 ^ k % 4 = d / 4 ^ k % 4 := by
      rw [Nat.mod_pow_succ]
      rw [Nat.add_mul_div_left _ _ hq, Nat.div_eq_of_lt (Nat.mod_lt _ hq)]
      simp
    obtain ⟨a1, a2⟩ := quadrant_bits_mod (d % 4 ^ (k + 1) / 4 ^ k)
    obtain ⟨c1, c2⟩ := quadrant_bits_mod (d / 4 ^ k)
    rw [e1, a2, a1, c2, c1, e2]

theorem coordinate_of_succ (d k : Nat) (hd : d < 4 ^ (k + 1)) :
    coordinate_of d (k + 1) =
      ((rotate (2 ^ k) (coordinate_of (d % 4 ^ k) k).1 (coordinate_of (d % 4 ^ k) k).2
          (d / 4 ^ k / 2) ((d / 4 ^ k + d / 4 ^ k / 2) % 2)).1 + 2 ^ k * (d / 4 ^ k / 2),
       (rotate (2 ^ k) (coordinate_of (d % 4 ^ k) k).1 (coordinate_of (d % 4 ^ k) k).2
          (d / 4 ^ k / 2) ((d / 4 ^ k + d / 4 ^ k / 2) % 2)).2
          + 2 ^ k * ((d / 4 ^ k + d / 4 ^ k / 2) % 2)) := by
  have hq : d / 4 ^ k < 4 := Nat.div_lt_of_lt_mul (by rw [pow_succ] at hd; omega)
  obtain ⟨c1, c2⟩ := quadrant_bits_mod (d / 4 ^ k)
  rw [coordinate_of_succ_state, c2, c1, coordinate_of_mod, Nat.mod_eq_of_lt hq]

theorem quadrant_decode (q : Nat) (hq : q < 4) :
    quadrant_index (q / 2) ((q + q / 2) % 2) = q := by
  interval_cases q <;> decide

theorem quadrant_encode (rx ry : Nat) (hx : rx < 2) (hy : ry < 2) :
    quadrant_index rx ry / 2 = rx ∧ (quadrant_index rx ry + quadrant_index rx ry / 2) % 2 = ry := by
  interval_cases rx <;> interval_cases ry <;> decide

theorem distance_coordinate (k d : Nat) (hd : d < 4 ^ k) :
    distance_of (coordinate_of d k).1 (coordinate_of d k).2 k = d := by
  induction k generalizing d with
  | zero =>
    simp at hd
    subst hd
    rfl
  | succ k ih =>
    have hP : 0 < 2 ^ k := Nat.pos_pow_of_pos k (by decide)
    have hQ : 0 < 4 ^ k := Nat.pos_pow_of_pos k (by decide)
    have hq : d / 4 ^ k < 4 := Nat.div_lt_of_lt_mul (by rw [pow_succ] at hd; omega)
    obtain ⟨cl1, cl2⟩ := coordinate_of_lt (d % 4 ^ k) k
    obtain ⟨xl, yl⟩ := coordinate_of_lt d (k + 1)
    have hi := ih (d % 4 ^ k) (Nat.mod_lt _ hQ)
    rw [distance_of_succ _ _ k xl yl]
    rw [coordinate_of_succ d k hd]
    simp only []
    obtain ⟨pl1, pl2⟩ := rotate_lt (2 ^ k) (coordinate_of (d % 4 ^ k) k).1
      (coordinate_of (d % 4 ^ k) k).2 (d / 4 ^ k / 2) ((d / 4 ^ k + d / 4 ^ k / 2) % 2) cl1 cl2
    rw [Nat.add_mul_div_left _ _ hP, Nat.add_mul_div_left _ _ hP, Nat.div_eq_of_lt pl1,
      Nat.div_eq_of_lt pl2, Nat.add_mul_mod_self_left, Nat.add_mul_mod_self_left,
      Nat.mod_eq_of_lt pl1, Nat.mod_eq_of_lt pl2]
    simp only [Nat.zero_add]
    rw [rotate_rotate _ _ _ _ _ cl1 cl2, hi, quadrant_decode _ hq]
    exact Nat.div_add_mod' d (4 ^ k)

theorem coordinate_distance (k x y : Nat) (hx : x < 2 ^ k) (hy : y < 2 ^ k) :
    coordinate_of (distance_of x y k) k = (x, y) := by
  induction k generalizing x y with
  | zero =>
    simp at hx hy
    subst hx
    subst hy
    rfl
  | succ k ih =>
    have hP : 0 < 2 ^ k := Nat.pos_pow_of_pos k (by decide)
    have hQ : 0 < 4 ^ k := Nat.pos_pow_of_pos k (by decide)
    have hxq : x / 2 ^ k < 2 := Nat.div_lt_of_lt_mul (by rw [pow_succ] at hx; omega)
    have hyq : y / 2 ^ k < 2 := Nat.div_lt_of_lt_mul (by rw [pow_succ] at hy; omega)
    obtain ⟨pl1, pl2⟩ := rotate_lt (2 ^ k) (x % 2 ^ k) (y % 2 ^ k) (x / 2 ^ k) (y / 2 ^ k)
      (Nat.mod_lt _ hP) (Nat.mod_lt _ hP)
    have hi := ih _ _ pl1 pl2
    have hd0 := distance_of_lt (rotate (2 ^ k) (x % 2 ^ k) (y % 2 ^ k) (x / 2 ^ k) (y / 2 ^ k)).1
      (rotate (2 ^ k) (x % 2 ^ k) (y % 2 ^ k) (x / 2 ^ k) (y / 2 ^ k)).2 k
    obtain ⟨q1, q2⟩ := quadrant_encode _ _ hxq hyq
    rw [coordinate_of_succ _ k (distance_of_lt x y (k + 1))]
    rw [distance_of_succ x y k hx hy]
    have ediv : (quadrant_index (x / 2 ^ k) (y / 2 ^ k) * 4 ^ k +
        distance_of (rotate (2 ^ k) (x % 2 ^ k) (y % 2 ^ k) (x / 2 ^ k) (y / 2 ^ k)).1
          (rotate (2 ^ k) (x % 2 ^ k) (y % 2 ^ k) (x / 2 ^ k) (y / 2 ^ k)).2 k) / 4 ^ k
        = quadrant_index (x / 2 ^ k) (y / 2 ^ k) := by
      rw [Nat.add_comm, Nat.add_mul_div_right _ _ hQ, Nat.div_eq_of_lt hd0, Nat.zero_add]
    have emod : (quadrant_index (x / 2 ^ k) (y / 2 ^ k) * 4 ^ k +
        distance_of (rotate (2 ^ k) (x % 2 ^ k) (y % 2 ^ k) (x / 2 ^ k) (y / 2 ^ k)).1
          (rotate (2 ^ k) (x % 2 ^ k) (y % 2 ^ k) (x / 2 ^ k) (y / 2 ^ k)).2 k) % 4 ^ k
        = distance_of (rotate (2 ^ k) (x % 2 ^ k) (y % 2 ^ k) (x / 2 ^ k) (y / 2 ^ k)).1
          (rotate (2 ^ k) (x % 2 ^ k) (y % 2 ^ k) (x / 2 ^ k) (y / 2 ^ k)).2 k := by
      rw [Nat.add_comm, Nat.add_mul_mod_self_right, Nat.mod_eq_of_lt hd0]
    rw [ediv, emod, q2, q1, hi]
    simp only []
    rw [rotate_rotate _ _ _ _ _ (Nat.mod_lt _ hP) (Nat.mod_lt _ hP)]
    simp only []
    rw [Nat.mod_add_div, Nat.mod_add_div]

theorem orderSearch_spec (fuel k n : Nat) (h : n ≤ k + fuel) : n ≤ 2 ^ orderSearch fuel k n := by
  induction fuel generalizing k with
  | zero =>
    simp only [orderSearch]
    have := @Nat.lt_two_pow k
    omega
  | succ fuel ih =>
    simp only [orderSearch]
    split
    · assumption
    · exact ih (k + 1) (by omega)

theorem curve_order_spec (width height : Nat) :
    width ≤ 2 ^ curve_order width height ∧ height ≤ 2 ^ curve_order width height := by
  have h := orderSearch_spec (max width height) 0 (max width height) (by omega)
  unfold curve_order
  constructor
  · exact le_trans (le_max_left _ _) h
  · exact le_trans (le_max_right _ _) h

theorem coordinate_of_injOn (k d1 d2 : Nat) (h1 : d1 < 4 ^ k) (h2 : d2 < 4 ^ k)
    (e : coordinate_of d1 k = coordinate_of d2 k) : d1 = d2 := by
  rw [← distance_coordinate k d1 h1, ← distance_coordinate k d2 h2, e]

theorem curveOrder_nodup (width height k : Nat) : (curveOrder width height k).Nodup := by
  unfold curveOrder
  apply List.Nodup.map_on
  · intro c1 hc1 c2 hc2 e
    simp only [List.mem_filter, decide_eq_true_eq] at hc1 hc2
    obtain ⟨_, a1, a2⟩ := hc1
    obtain ⟨_, b1, b2⟩ := hc2
    have hw : 0 < width := by omega
    have ex : c1.1 = c2.1 := by
      have := congrArg (fun t => t % width) e
      simp only [] at this
      rwa [Nat.add_comm (c1.2 * width), Nat.add_comm (c2.2 * width), Nat.add_mul_mod_self_right,
        Nat.add_mul_mod_self_right, Nat.mod_eq_of_lt a1, Nat.mod_eq_of_lt b1] at this
    have ey : c1.2 = c2.2 := by
      have := congrArg (fun t => t / width) e
      simp only [] at this
      rwa [Nat.mul_comm c1.2, Nat.mul_comm c2.2, Nat.mul_add_div hw, Nat.mul_add_div hw,
        Nat.div_eq_of_lt a1, Nat.div_eq_of_lt b1, Nat.add_zero, Nat.add_zero] at this
    exact Prod.ext ex ey
  · apply List.Nodup.filter
    apply List.Nodup.map_on
    · intro d1 hd1 d2 hd2 e
      rw [List.mem_range] at hd1 hd2
      exact coordinate_of_injOn k d1 d2 hd1 hd2 e
    · exact List.nodup_range _

theorem mem_curveOrder (width height k : Nat) (hw : width ≤ 2 ^ k) (hh : height ≤ 2 ^ k)
    (i : Nat) : i ∈ curveOrder width height k ↔ i < width * height := by
  unfold curveOrder
  simp only [List.mem_map, List.mem_filter, List.mem_range, decide_eq_true_eq]
  constructor
  · rintro ⟨c, ⟨_, hx, hy⟩, rfl⟩
    calc c.2 * width + c.1 < c.2 * width + width := by omega
      _ = width * (c.2 + 1) := by ring
      _ ≤ width * height := Nat.mul_le_mul_left _ hy
  · intro hi
    have hwpos : 0 < width := by
      rcases Nat.eq_zero_or_pos width with h | h
      · rw [h] at hi; simp at hi
      · exact h
    have hx : i % width < width := Nat.mod_lt _ hwpos
    have hy : i / width < height := Nat.div_lt_of_lt_mul hi
    refine ⟨(i % width, i / width), ⟨⟨distance_of (i % width) (i / width) k, distance_of_lt _ _ _,
      coordinate_distance k _ _ (by omega) (by omega)⟩, hx, hy⟩, ?_⟩
    simp only []
    rw [Nat.mul_comm]
    exact Nat.div_add_mod i width

theorem curveOrder_perm (width height k : Nat) (hw : width ≤ 2 ^ k) (hh : height ≤ 2 ^ k) :
    List.Perm (curveOrder width height k) (List.range (width * height)) := by
  rw [List.perm_ext_iff_of_nodup (curveOrder_nodup width height k) (List.nodup_range _)]
  intro i
  rw [mem_curveOrder width height k hw hh, List.mem_range]

theorem map_getD_range (l : List Nat) : (List.range l.length).map (fun i => l.getD i 0) = l := by
  apply List.ext_getElem
  · simp
  · intro i h1 h2
    simp [List.getD_eq_getElem?_getD, List.getElem?_eq_getElem h2]

theorem traversal_perm (curve data : List Nat)
    (hc : List.Perm curve (List.range data.length)) :
    List.Perm (curve.map (fun i => data.getD i 0)) data := by
  have h := List.Perm.map (fun i => data.getD i 0) hc
  rwa [map_getD_range] at h

theorem sortSegments_perm (len : Nat) (key : Nat → Nat) (fuel : Nat) (l : List Nat) :
    List.Perm (sortSegments len key fuel l) l := by
  induction fuel generalizing l with
  | zero => exact List.Perm.refl _
  | succ fuel ih =>
    simp only [sortSegments]
    split
    · rename_i h
      rw [h]
    · have h1 := List.perm_insertionSort (fun a b => key a ≤ key b) (l.take len)
      have h2 := ih (l.drop len)
      have h3 := List.Perm.append h1 h2
      rwa [List.take_append_drop] at h3

theorem sortSegments_fuel (len : Nat) (key : Nat → Nat) (hlen : 1 ≤ len) (f1 f2 : Nat)
    (l : List Nat) (h1 : l.length ≤ f1) (h2 : l.length ≤ f2) :
    sortSegments len key f1 l = sortSegments len key f2 l := by
  induction f1 generalizing f2 l with
  | zero =>
    have hl : l = [] := List.length_eq_zero.1 (by omega)
    subst hl
    cases f2 <;> simp [sortSegments]
  | succ f1 ih =>
    cases f2 with
    | zero =>
      have hl : l = [] := List.length_eq_zero.1 (by omega)
      subst hl
      simp [sortSegments]
    | succ f2 =>
      simp only [sortSegments]
      split
      · rfl
      · rename_i hne
        have hpos : 0 < l.length := List.length_pos.2 hne
        have hd : (l.drop len).length ≤ l.length - 1 := by
          rw [List.length_drop]
          omega
        rw [ih f2 (l.drop len) (by omega) (by omega)]

theorem scatter_length (idx vals buf : List Nat) : (scatter idx vals buf).length = buf.length := by
  induction idx generalizing vals buf with
  | nil => simp [scatter]
  | cons i is ih =>
    cases vals with
    | nil => simp [scatter]
    | cons v vs =>
      simp only [scatter]
      rw [ih, List.length_set]

theorem scatter_getD_of_not_mem (idx vals buf : List Nat) (i : Nat) (hi : i ∉ idx) :
    (scatter idx vals buf).getD i 0 = buf.getD i 0 := by
  induction idx generalizing vals buf with
  | nil => simp [scatter]
  | cons j js ih =>
    cases vals with
    | nil => simp [scatter]
    | cons v vs =>
      simp only [scatter]
      rw [List.mem_cons, not_or] at hi
      rw [ih _ _ hi.2]
      simp only [List.getD_eq_getElem?_getD]
      rw [List.getElem?_set_ne (Ne.symm hi.1)]

theorem scatter_map (idx vals buf : List Nat) (hn : idx.Nodup)
    (hb : ∀ i ∈ idx, i < buf.length) (hl : idx.length = vals.length) :
    idx.map (fun i => (scatter idx vals buf).getD i 0) = vals := by
  induction idx generalizing vals buf with
  | nil =>
    cases vals with
    | nil => rfl
    | cons v vs => simp at hl
  | cons j js ih =>
    cases vals with
    | nil => simp at hl
    | cons v vs =>
      rw [List.nodup_cons] at hn
      simp only [scatter, List.map_cons]
      refine congrArg₂ List.cons ?_ ?_
      · rw [scatter_getD_of_not_mem _ _ _ _ hn.1]
        have hj : j < buf.length := hb j (List.mem_cons_self _ _)
        simp [List.getD_eq_getElem?_getD, List.getElem?_set_self, hj]
      · apply ih _ _ hn.2
        · intro i hi
          rw [List.length_set]
          exact hb i (List.mem_cons_of_mem _ hi)
        · simpa using hl

theorem scatter_perm (curve vals buf : List Nat)
    (hc : List.Perm curve (List.range buf.length)) (hl : vals.length = buf.length) :
    List.Perm (scatter curve vals buf) vals := by
  have hn : curve.Nodup := (List.Perm.nodup_iff hc).2 (List.nodup_range _)
  have hb : ∀ i ∈ curve, i < buf.length := by
    intro i hi
    exact List.mem_range.1 ((List.Perm.mem_iff hc).1 hi)
  have hlen : curve.length = vals.length := by
    rw [List.Perm.length_eq hc, List.length_range, hl]
  have h1 := scatter_map curve vals buf hn hb hlen
  have hc2 : List.Perm curve (List.range (scatter curve vals buf).length) := by
    rwa [scatter_length]
  have h2 := traversal_perm curve (scatter curve vals buf) hc2
  rw [h1] at h2
  exact h2.symm

theorem reorder_perm (cfg : ReorderConfig) (data curve : List Nat)
    (hc : List.Perm curve (List.range data.length)) :
    List.Perm (reorder cfg data curve) data := by
  have ht := traversal_perm curve data hc
  unfold reorder
  cases cfg.mode with
  | pure_traversal_remap => exact ht
  | sorted_along_curve =>
    simp only []
    have hs := sortSegments_perm cfg.segment_length.toNat cfg.sort_key
      (curve.map (fun i => data.getD i 0)).length (curve.map (fun i => data.getD i 0))
    have hl : (sortSegments cfg.segment_length.toNat cfg.sort_key
        (curve.map (fun i => data.getD i 0)).length (curve.map (fun i => data.getD i 0))).length
        = data.length := by
      rw [List.Perm.length_eq hs, List.Perm.length_eq ht]
    exact (scatter_perm curve _ data hc hl).trans (hs.trans ht)

theorem hilbert_glitch_perm (cfg : ReorderConfig) (data : List Nat) (width height : Nat) :
    List.Perm (hilbert_glitch cfg data width height) data := by
  unfold hilbert_glitch
  cases hv : validate cfg data width height with
  | some v => exact List.Perm.refl _
  | none =>
    simp only []
    have hlen : data.length = width * height := by
      unfold validate at hv
      by_contra hne
      rw [if_pos hne] at hv
      exact Option.noConfusion hv
    obtain ⟨hw, hh⟩ := curve_order_spec width height
    apply reorder_perm
    rw [hlen]
    exact curveOrder_perm width height _ hw hh

/-- With valid `argc`, when `readHeader` stored `w`, `h`, `max`, the run of `main` is
determined as follows. -/
theorem main_of_header (hilbert_glitch : List Nat → Nat → Nat → List Nat) (u : Uninit)
    (argc : Int) (tempin : Stream) (ret w h max : Int) (rest : Stream)
    (hargc : 2 ≤ argc ∧ argc ≤ 3) (hhdr : readHeader u tempin 0 0 0 = ⟨ret, w, h, max, rest⟩) :
    main hilbert_glitch u argc tempin =
      ⟨0, [((readPixels (mulInt w h).toNat rest).1, w, h)],
        (readPixels (mulInt w h).toNat rest).2,
        some (writeHeader w h max ++
          writePixels (mulInt w h).toNat
            (swaylock_effect hilbert_glitch (readPixels (mulInt w h).toNat rest).1 w h))⟩ := by
  rw [main_run hilbert_glitch u argc tempin hargc, hhdr]

/-- When `readHeader` fails, `main` goes on with the zero-initialised globals. -/
theorem main_of_bad_magic (hilbert_glitch : List Nat → Nat → Nat → List Nat) (u : Uninit)
    (argc : Int) (tempin : Stream) (hargc : 2 ≤ argc ∧ argc ≤ 3)
    (hret : (readHeader u tempin 0 0 0).ret = -1) :
    (main hilbert_glitch u argc tempin).exit = 0 ∧
    (main hilbert_glitch u argc tempin).reorderCalls = [([], 0, 0)] ∧
    (main hilbert_glitch u argc tempin).output = some [80, 54, 10, 48, 32, 48, 10, 48, 10] := by
  by_cases hc : (fgets u.magicnumber 3 tempin).1.getD 0 0 ≠ 80 ∨
      (fgets u.magicnumber 3 tempin).1.getD 1 0 ≠ 54
  · have hb := readHeader_bad_magic u tempin 0 0 0 hc
    rw [main_of_header hilbert_glitch u argc tempin _ _ _ _ _ hargc hb]
    refine ⟨rfl, ?_, ?_⟩
    · simp [mulInt, wrapInt32, readPixels]
    · simp only [mulInt, wrapInt32]
      norm_num [writePixels]
      decide
  · have := readHeader_good_magic u tempin 0 0 0 hc
    rw [this] at hret
    exact absurd hret (by decide)


theorem readPixels_one (r g b : Byte) :
    (readPixels 1 [r, g, b]).1 = [packPixel r.val g.val b.val] := rfl

theorem writePixels_one (px : Nat) :
    writePixels 1 [px] = [(unpackPixel px).1, (unpackPixel px).2.1, (unpackPixel px).2.2] := rfl

/-! ## The claims -/

/-- C1: the buffer left by `swaylock_effect` holds the same multiset of pixel values as the
buffer it was given, for every buffer, configuration, width and height (in particular when
`width * height` is the length of the buffer); a violated precondition leaves the buffer
untouched. -/
theorem C1_swaylock_effect_multiset (cfg : ReorderConfig) (data : List Nat)
    (width height : Int) :
    Multiset.ofList (swaylock_effect (hilbert_glitch cfg) data width height)
      = Multiset.ofList data := by
  unfold swaylock_effect
  exact Multiset.coe_eq_coe.2 (hilbert_glitch_perm cfg data _ _)

/-- C2: for every order `k` (so for every valid order `k ≥ 1`), `distance_of` after
`coordinate_of` is the identity on the distances below `4 ^ k`, and `coordinate_of` after
`distance_of` is the identity on the cells of the grid of side `2 ^ k`. -/
theorem C2_hilbert_bijection (k : Nat) :
    (∀ d, d < 4 ^ k → distance_of (coordinate_of d k).1 (coordinate_of d k).2 k = d) ∧
    (∀ x y, x < 2 ^ k → y < 2 ^ k → coordinate_of (distance_of x y k) k = (x, y)) :=
  ⟨fun d hd => distance_coordinate k d hd, fun x y hx hy => coordinate_distance k x y hx hy⟩

/-- Witness of C2 at order 3: the distance 37 and the cell `(5, 2)`. -/
theorem C2_hilbert_bijection_witness :
    ((37 : Nat) < 4 ^ 3 ∧ distance_of (coordinate_of 37 3).1 (coordinate_of 37 3).2 3 = 37) ∧
    ((5 : Nat) < 2 ^ 3 ∧ (2 : Nat) < 2 ^ 3 ∧ coordinate_of (distance_of 5 2 3) 3 = (5, 2)) :=
  ⟨⟨by decide, (C2_hilbert_bijection 3).1 37 (by decide)⟩,
   ⟨by decide, by decide, (C2_hilbert_bijection 3).2 5 2 (by decide) (by decide)⟩⟩

/-- C3: packing three bytes as the read loop does and unpacking the pixel as the write loop
does gives back the three bytes in the order red, green, blue; the same holds for the two
loops run on one pixel. -/
theorem C3_decode_encode_identity (r g b : Byte) :
    unpackPixel (packPixel r.val g.val b.val) = (r, g, b) ∧
    writePixels 1 (readPixels 1 [r, g, b]).1 = [r, g, b] := by
  have key : unpackPixel (packPixel r.val g.val b.val) = (r, g, b) := by
    obtain ⟨h1, h2, h3⟩ := unpackPixel_val (packPixel r.val g.val b.val)
    have hp := packPixel_bytes r.val g.val b.val r.isLt g.isLt b.isLt
    have e : packPixel (r.val : Int) (g.val : Int) (b.val : Int)
        = r.val * 16777216 + g.val * 65536 + b.val * 256 + 255 := by exact_mod_cast hp
    rw [e] at h1 h2 h3
    have hr := r.isLt
    have hg := g.isLt
    have hb := b.isLt
    refine Prod.ext (Fin.ext ?_) (Prod.ext (Fin.ext ?_) (Fin.ext ?_))
    · rw [e]; simp only []; omega
    · rw [e]; simp only []; omega
    · rw [e]; simp only []; omega
  refine ⟨key, ?_⟩
  rw [readPixels_one, writePixels_one, key]

/-- C4: for input bytes `r g b` the pixel stored by the read loop is exactly
`r * 2^24 + g * 2^16 + b * 2^8 + 255`, a value below `2^32`: red, green, blue, alpha from
the most significant byte down, with alpha `0xFF`; also when `r ≥ 128`. -/
theorem C4_pixel_layout (r g b : Byte) :
    packPixel r.val g.val b.val = r.val * 2 ^ 24 + g.val * 2 ^ 16 + b.val * 2 ^ 8 + 255 ∧
    (readPixels 1 [r, g, b]).1 = [r.val * 2 ^ 24 + g.val * 2 ^ 16 + b.val * 2 ^ 8 + 255] ∧
    packPixel r.val g.val b.val < 2 ^ 32 ∧
    packPixel r.val g.val b.val / 2 ^ 24 = r.val ∧
    packPixel r.val g.val b.val / 2 ^ 16 % 256 = g.val ∧
    packPixel r.val g.val b.val / 2 ^ 8 % 256 = b.val ∧
    packPixel r.val g.val b.val % 256 = 255 := by
  have hp := packPixel_bytes r.val g.val b.val r.isLt g.isLt b.isLt
  have e : packPixel (r.val : Int) (g.val : Int) (b.val : Int)
      = r.val * 16777216 + g.val * 65536 + b.val * 256 + 255 := by exact_mod_cast hp
  have hr := r.isLt
  have hg := g.isLt
  have hb := b.isLt
  rw [readPixels_one, e]
  norm_num
  refine ⟨?_, ?_, ?_, ?_, ?_⟩ <;> omega

/-- C8: unpacking a 32-bit pixel and packing the three bytes again gives the pixel with
its low byte replaced by `0xFF`; the bytes written do not depend on the alpha byte; and the
round trip is the identity exactly when the alpha byte is `0xFF`. -/
theorem C8_encode_decode (px : Nat) (hpx : px < 2 ^ 32) :
    packPixel (unpackPixel px).1.val (unpackPixel px).2.1.val (unpackPixel px).2.2.val
        = px / 256 * 256 + 255 ∧
    (∀ a : Nat, a < 256 → unpackPixel (px / 256 * 256 + a) = unpackPixel px) ∧
    (packPixel (unpackPixel px).1.val (unpackPixel px).2.1.val (unpackPixel px).2.2.val = px
        ↔ px % 256 = 255) := by
  obtain ⟨h1, h2, h3⟩ := unpackPixel_val px
  have hp := packPixel_bytes _ _ _ (unpackPixel px).1.isLt (unpackPixel px).2.1.isLt
    (unpackPixel px).2.2.isLt
  have e : packPixel ((unpackPixel px).1.val : Int) ((unpackPixel px).2.1.val : Int)
      ((unpackPixel px).2.2.val : Int) = px / 256 * 256 + 255 := by
    have : packPixel ((unpackPixel px).1.val : Int) ((unpackPixel px).2.1.val : Int)
      ((unpackPixel px).2.2.val : Int) = (unpackPixel px).1.val * 16777216
        + (unpackPixel px).2.1.val * 65536 + (unpackPixel px).2.2.val * 256 + 255 := by
      exact_mod_cast hp
    rw [this, h1, h2, h3]
    norm_num at hpx
    omega
  refine ⟨e, ?_, ?_⟩
  · intro a ha
    obtain ⟨k1, k2, k3⟩ := unpackPixel_val (px / 256 * 256 + a)
    refine Prod.ext (Fin.ext ?_) (Prod.ext (Fin.ext ?_) (Fin.ext ?_))
    · rw [k1, h1]; omega
    · rw [k2, h2]; omega
    · rw [k3, h3]; omega
  · rw [e]; omega

/-- Witness of C8 at the pixel `0xFEFEFF00`, whose alpha byte is `0`. -/
theorem C8_encode_decode_witness :
    (4278124288 : Nat) < 2 ^ 32 ∧
    (packPixel (unpackPixel 4278124288).1.val (unpackPixel 4278124288).2.1.val
        (unpackPixel 4278124288).2.2.val = 4278124288 / 256 * 256 + 255 ∧
    (∀ a : Nat, a < 256 → unpackPixel (4278124288 / 256 * 256 + a) = unpackPixel 4278124288) ∧
    (packPixel (unpackPixel 4278124288).1.val (unpackPixel 4278124288).2.1.val
        (unpackPixel 4278124288).2.2.val = 4278124288 ↔ 4278124288 % 256 = 255)) :=
  ⟨by decide, C8_encode_decode 4278124288 (by decide)⟩

/-- C9: on a stream of at least two bytes `readHeader` returns `-1` exactly when the first
two bytes are not `P` `6`, and then `*w`, `*h`, `*max` keep their values; in every other
case it returns `0`, whatever the following lines hold. -/
theorem C9_readHeader_return (u : Uninit) (b0 b1 : Byte) (rest : Stream) (w h max : Int) :
    ((readHeader u (b0 :: b1 :: rest) w h max).ret = -1 ↔ ¬ (b0 = 80 ∧ b1 = 54)) ∧
    ((readHeader u (b0 :: b1 :: rest) w h max).ret = -1 →
      (readHeader u (b0 :: b1 :: rest) w h max).w = w ∧
      (readHeader u (b0 :: b1 :: rest) w h max).h = h ∧
      (readHeader u (b0 :: b1 :: rest) w h max).max = max) ∧
    ((readHeader u (b0 :: b1 :: rest) w h max).ret ≠ -1 →
      (readHeader u (b0 :: b1 :: rest) w h max).ret = 0) := by
  obtain ⟨m0, m1⟩ := fgets_magic u.magicnumber b0 b1 rest
  by_cases hp : b0 = 80 ∧ b1 = 54
  · have hc : ¬ ((fgets u.magicnumber 3 (b0 :: b1 :: rest)).1.getD 0 0 ≠ 80 ∨
        (fgets u.magicnumber 3 (b0 :: b1 :: rest)).1.getD 1 0 ≠ 54) := by
      rw [m0, m1, hp.1, hp.2]
      decide
    have h0 := readHeader_good_magic u (b0 :: b1 :: rest) w h max hc
    rw [h0]
    simp [hp]
  · have hc : (fgets u.magicnumber 3 (b0 :: b1 :: rest)).1.getD 0 0 ≠ 80 ∨
        (fgets u.magicnumber 3 (b0 :: b1 :: rest)).1.getD 1 0 ≠ 54 := by
      rw [m0, m1]
      by_cases e0 : b0 = 80
      · right
        have : ¬ b0 = 10 := by rw [e0]; decide
        rw [if_neg this]
        exact fun e1 => hp ⟨e0, e1⟩
      · left; exact e0
    have h0 := readHeader_bad_magic u (b0 :: b1 :: rest) w h max hc
    rw [h0]
    simp [hp]

/-- C10: for `int` dimensions, `swaylock_effect` is the call of `hilbert_glitch` on the same
buffer with the dimensions reduced modulo `2^32`, whatever `hilbert_glitch` is; non-negative
dimensions are passed unchanged. -/
theorem C10_swaylock_passthrough {β : Type} (hilbert_glitch : List Nat → Nat → Nat → β)
    (data : List Nat) (width height : Int)
    (hw : -2 ^ 31 ≤ width ∧ width < 2 ^ 31) (hh : -2 ^ 31 ≤ height ∧ height < 2 ^ 31) :
    swaylock_effect hilbert_glitch data width height
        = hilbert_glitch data (width % 2 ^ 32).toNat (height % 2 ^ 32).toNat ∧
    (0 ≤ width → 0 ≤ height →
      swaylock_effect hilbert_glitch data width height
        = hilbert_glitch data width.toNat height.toNat) := by
  have key : ∀ z : Int, -2 ^ 31 ≤ z ∧ z < 2 ^ 31 → intToUint32 z = (z % 2 ^ 32).toNat := by
    intro z hz
    unfold intToUint32
    norm_num at hz ⊢
    split <;> omega
  have key2 : ∀ z : Int, 0 ≤ z → intToUint32 z = z.toNat := by
    intro z hz
    unfold intToUint32
    rw [if_neg (by omega)]
  refine ⟨?_, ?_⟩
  · unfold swaylock_effect
    rw [key width hw, key height hh]
  · intro h1 h2
    unfold swaylock_effect
    rw [key2 width h1, key2 height h2]

/-- Witness of C10 at width `-1` and height `3`, with a routine that records what it is
given. -/
theorem C10_swaylock_passthrough_witness :
    ((-2 ^ 31 ≤ (-1 : Int) ∧ (-1 : Int) < 2 ^ 31) ∧ (-2 ^ 31 ≤ (3 : Int) ∧ (3 : Int) < 2 ^ 31)) ∧
    swaylock_effect recordRoutine [1, 2, 3] (-1) 3 = ([3, 2, 1], 4294967295, 3) := by
  refine ⟨by decide, ?_⟩
  rw [(C10_swaylock_passthrough recordRoutine [1, 2, 3] (-1) 3 (by decide) (by decide)).1]
  decide

/-- Counterexample to C5 as stated: the header declares one pixel and no data byte follows,
yet `readHeader` succeeds, the buffer `[0xFEFEFFFF]` is built from three `EOF` values, the
reorder routine is called on it, an output image is written and `main` returns `0`. -/
theorem C5_truncated_input_counterexample :
    readHeader zeroedArrays truncatedImage 0 0 0 = ⟨0, 1, 1, 255, []⟩ ∧
    ([] : Stream).length < 1 * 1 * 3 ∧
    main reverseRoutine zeroedArrays 2 truncatedImage
      = ⟨0, [([4278124543], 1, 1)], [],
          some [80, 54, 10, 49, 32, 49, 10, 50, 53, 53, 10, 254, 254, 255]⟩ := by
  decide

/-- C5 (amended): truncated input is not rejected.  When the header declares non-negative
`w` and `h` whose product fits in an `int` and fewer than `w * h * 3` data bytes follow,
`main` still builds a buffer of `w * h` pixels, every byte missing from the input being read
as `EOF = -1` (this happens for at least one pixel); the reorder routine is called once on
that buffer, a header and `3 * w * h` data bytes are written, and `main` returns `0`. -/
theorem C5_truncated_input_processed (hilbert_glitch : List Nat → Nat → Nat → List Nat)
    (u : Uninit) (argc : Int) (tempin : Stream) (ret w h max : Int) (rest : Stream)
    (hargc : 2 ≤ argc ∧ argc ≤ 3)
    (hhdr : readHeader u tempin 0 0 0 = ⟨ret, w, h, max, rest⟩)
    (hw : 0 ≤ w) (hh : 0 ≤ h) (hfit : w * h < 2 ^ 31)
    (htrunc : (rest.length : Int) < w * h * 3) :
    ∃ data body,
      (main hilbert_glitch u argc tempin).exit = 0 ∧
      (main hilbert_glitch u argc tempin).reorderCalls = [(data, w, h)] ∧
      (data.length : Int) = w * h ∧
      (∀ i, i < data.length → data.getD i 0 =
        packPixel (fgetcAt rest (3 * i)) (fgetcAt rest (3 * i + 1)) (fgetcAt rest (3 * i + 2))) ∧
      (∃ i, i < data.length ∧ fgetcAt rest (3 * i + 2) = -1) ∧
      (main hilbert_glitch u argc tempin).output = some (writeHeader w h max ++ body) ∧
      (body.length : Int) = 3 * (w * h) := by
  rw [main_of_header hilbert_glitch u argc tempin ret w h max rest hargc hhdr]
  have hm := mulInt_fit _ _ hw hh hfit
  have hnn : 0 ≤ w * h := Int.mul_nonneg hw hh
  refine ⟨_, _, rfl, rfl, ?_, ?_, ?_, rfl, ?_⟩
  · rw [readPixels_eq, hm]
    simp only [List.length_map, List.length_range]
    omega
  · intro i hi
    rw [readPixels_eq] at hi ⊢
    simp only [List.length_map, List.length_range] at hi
    simp only [List.getD_eq_getElem?_getD, List.getElem?_map, List.getElem?_range hi]
    simp
  · refine ⟨(w * h).toNat - 1, ?_, ?_⟩
    · rw [readPixels_eq, hm]
      simp only [List.length_map, List.length_range]
      omega
    · apply fgetcAt_eof
      omega
  · rw [writePixels_length, hm]
    omega

/-- Witness of C5 (amended): the one-pixel header without data. -/
theorem C5_truncated_input_processed_witness :
    ((2 : Int) ≤ 2 ∧ (2 : Int) ≤ 3) ∧
    readHeader zeroedArrays truncatedImage 0 0 0 = ⟨0, 1, 1, 255, []⟩ ∧
    (0 : Int) ≤ 1 ∧ (1 : Int) * 1 < 2 ^ 31 ∧ ((([] : Stream).length : Nat) : Int) < 1 * 1 * 3 ∧
    ∃ data body,
      (main reverseRoutine zeroedArrays 2 truncatedImage).exit = 0 ∧
      (main reverseRoutine zeroedArrays 2 truncatedImage).reorderCalls = [(data, 1, 1)] ∧
      (data.length : Int) = 1 * 1 ∧
      (∀ i, i < data.length → data.getD i 0 =
        packPixel (fgetcAt [] (3 * i)) (fgetcAt [] (3 * i + 1)) (fgetcAt [] (3 * i + 2))) ∧
      (∃ i, i < data.length ∧ fgetcAt [] (3 * i + 2) = -1) ∧
      (main reverseRoutine zeroedArrays 2 truncatedImage).output
        = some (writeHeader 1 1 255 ++ body) ∧
      (body.length : Int) = 3 * (1 * 1) :=
  ⟨by decide, by decide, by decide, by decide, by decide,
    C5_truncated_input_processed reverseRoutine zeroedArrays 2 truncatedImage 0 1 1 255 []
      (by decide) (by decide) (by decide) (by decide) (by decide) (by decide)⟩

/-- C6: dimensions are preserved end to end.  When the input header made `readHeader` store
non-negative `w` and `h` whose product fits in an `int`, and `max`, then for every reorder
routine `main` builds a buffer of exactly `w * h` pixels, reads `3 * w * h` data bytes (as
far as the input holds them), and writes the header of `w`, `h`, `max` followed by exactly
`3 * w * h` data bytes; reading that output back with `readHeader` gives the same `w`, `h`
and `max`. -/
theorem C6_dimensions_preserved (hilbert_glitch : List Nat → Nat → Nat → List Nat)
    (u : Uninit) (argc : Int) (tempin : Stream) (ret w h max : Int) (rest : Stream)
    (hargc : 2 ≤ argc ∧ argc ≤ 3)
    (hhdr : readHeader u tempin 0 0 0 = ⟨ret, w, h, max, rest⟩)
    (hw : 0 ≤ w) (hh : 0 ≤ h) (hfit : w * h < 2 ^ 31) :
    ∃ data body,
      (main hilbert_glitch u argc tempin).reorderCalls = [(data, w, h)] ∧
      (data.length : Int) = w * h ∧
      (main hilbert_glitch u argc tempin).unread = rest.drop (3 * data.length) ∧
      (main hilbert_glitch u argc tempin).output = some (writeHeader w h max ++ body) ∧
      (body.length : Int) = 3 * (w * h) ∧
      (∀ u2 : Uninit,
        readHeader u2 (writeHeader w h max ++ body) 0 0 0 = ⟨0, w, h, max, body⟩) := by
  rw [main_of_header hilbert_glitch u argc tempin ret w h max rest hargc hhdr]
  have hm := mulInt_fit _ _ hw hh hfit
  have hnn : 0 ≤ w * h := Int.mul_nonneg hw hh
  have hr := readHeader_range u tempin
  rw [hhdr] at hr
  simp only [] at hr
  obtain ⟨rw1, rh1, rm1⟩ := hr
  have hfit2 : w * h < 2147483648 := by norm_num at hfit; exact hfit
  have hlen : (readPixels (mulInt w h).toNat rest).1.length = (w * h).toNat := by
    rw [readPixels_eq, hm]
    simp only [List.length_map, List.length_range]
  refine ⟨_, _, rfl, ?_, ?_, rfl, ?_, ?_⟩
  · rw [hlen]
    omega
  · rw [hlen, readPixels_eq, hm]
  · rw [writePixels_length, hm]
    omega
  · intro u2
    exact readHeader_writeHeader u2 w h max 0 0 0 _ ⟨hw, rw1.2⟩ ⟨hh, rh1.2⟩ hfit2 rm1

/-- Witness of C6: the image of two pixels, with a routine that reverses the buffer. -/
theorem C6_dimensions_preserved_witness :
    ((2 : Int) ≤ 2 ∧ (2 : Int) ≤ 3) ∧
    readHeader zeroedArrays twoPixelImage 0 0 0 = ⟨0, 2, 1, 255, [1, 2, 3, 200, 201, 202]⟩ ∧
    (0 : Int) ≤ 2 ∧ (0 : Int) ≤ 1 ∧ (2 : Int) * 1 < 2 ^ 31 ∧
    ∃ data body,
      (main reverseRoutine zeroedArrays 2 twoPixelImage).reorderCalls = [(data, 2, 1)] ∧
      (data.length : Int) = 2 * 1 ∧
      (main reverseRoutine zeroedArrays 2 twoPixelImage).unread
        = List.drop (3 * data.length) [1, 2, 3, 200, 201, 202] ∧
      (main reverseRoutine zeroedArrays 2 twoPixelImage).output
        = some (writeHeader 2 1 255 ++ body) ∧
      (body.length : Int) = 3 * (2 * 1) ∧
      (∀ u2 : Uninit,
        readHeader u2 (writeHeader 2 1 255 ++ body) 0 0 0 = ⟨0, 2, 1, 255, body⟩) :=
  ⟨by decide, by decide, by decide, by decide, by decide,
    C6_dimensions_preserved reverseRoutine zeroedArrays 2 twoPixelImage 0 2 1 255
      [1, 2, 3, 200, 201, 202] (by decide) (by decide) (by decide) (by decide) (by decide)⟩

/-- C7 (as the code behaves): on a file whose magic number is `P5`, `readHeader` returns
`-1`, and `main` nevertheless calls the reorder routine (on the empty buffer, with width and
height `0`), writes the image `P6\n0 0\n0\n` and returns `0`. -/
theorem C7_failed_header_still_processed (hilbert_glitch : List Nat → Nat → Nat → List Nat)
    (u : Uninit) :
    (readHeader u wrongMagicImage 0 0 0).ret = -1 ∧
    (main hilbert_glitch u 2 wrongMagicImage).exit = 0 ∧
    (main hilbert_glitch u 2 wrongMagicImage).reorderCalls = [([], 0, 0)] ∧
    (main hilbert_glitch u 2 wrongMagicImage).output
      = some [80, 54, 10, 48, 32, 48, 10, 48, 10] := by
  have hret : (readHeader u wrongMagicImage 0 0 0).ret = -1 := by
    have hm := (fgets_magic u.magicnumber 80 53
      [10, 49, 32, 49, 10, 50, 53, 53, 10, 1, 2, 3]).2
    have hc : (fgets u.magicnumber 3 wrongMagicImage).1.getD 0 0 ≠ 80 ∨
        (fgets u.magicnumber 3 wrongMagicImage).1.getD 1 0 ≠ 54 := by
      right
      unfold wrongMagicImage
      rw [hm]
      decide
    rw [readHeader_bad_magic u wrongMagicImage 0 0 0 hc]
  exact ⟨hret, main_of_bad_magic hilbert_glitch u 2 wrongMagicImage (by decide) hret⟩

/-- An instance of the modelled reorder: on a 2 by 2 image the four pixels are sorted by
value along the curve `0, 2, 3, 1`, and the call through `swaylock_effect` is the same. -/
theorem hilbert_glitch_example :
    hilbert_glitch sortByValue [40, 30, 20, 10] 2 2 = [10, 40, 20, 30] ∧
    swaylock_effect (hilbert_glitch sortByValue) [40, 30, 20, 10] 2 2 = [10, 40, 20, 30] ∧
    hilbert_glitch sortByValue [40, 30, 20, 10] 3 2 = [40, 30, 20, 10] := by
  decide

end Pixelsortery
